import Mathlib

/-!
Verification of the redb B-tree core against its specification.

This file gives a shallow embedding of the code in
`src/tree_store/btree.rs` (deletion via pop-first/pop-last, checksum
finalization, page relocation, raw checksum verification) and
`src/tree_store/page_store/lru_cache.rs` (the FIFO page cache), and
proves theorems about the embedded definitions.

Modelling conventions:
- page numbers are `Nat`; checksums are `Nat` with the sentinel `DEFERRED`;
- encoded keys and values are byte lists (`List Nat`);
- the external node codecs (`LeafAccessor`, `BranchAccessor`, the builders)
  are out of scope of the sources, so a page's decoded content is modelled
  directly as a `Node` (ordered leaf entries, or branch children with
  per-child checksums plus separator keys); a page whose node-type tag byte
  is neither LEAF nor BRANCH is `Node.corrupt`;
- the page store (`TransactionalMemory`) is a `Mem` record holding the page
  table, the `uncommitted` predicate, the page size, an allocation cursor
  and injectable I/O failures; fallible calls return `Except Err`;
- Rust panics (`unreachable`, failed `assert`, `unwrap` of a missing child)
  are modelled as the error `Err.fatal`; recursion over pages uses fuel and
  exhaustion is the error `Err.fuel`;
- stateful code threads state explicitly: a mutating operation takes the
  state and returns the updated state paired with an `Except Err` result,
  so the state reached at the moment an error surfaces is preserved,
  exactly like a Rust `?` early return leaves `self` partially mutated.
-/

namespace Redb

/-- Encoded key bytes. -/
abbrev KeyBytes := List Nat

/-- Encoded value bytes. -/
abbrev ValBytes := List Nat

/-- One key/value slot of a leaf page. -/
structure Entry where
  key : KeyBytes
  value : ValBytes
deriving DecidableEq, Repr

/-- Decoded content of a page. `corrupt` models a page whose node-type tag
byte (the first byte) is neither `LEAF` nor `BRANCH`. A branch holds
`count_children` pairs of (child page number, stored child checksum) and
`count_children - 1` separator keys. -/
inductive Node where
  | leaf (entries : List Entry)
  | branch (children : List (Nat × Nat)) (keys : List KeyBytes)
  | corrupt
deriving DecidableEq, Repr

/-- `BtreeHeader` from `btree_base`: root page, root checksum, number of
key/value pairs reachable from the root. -/
structure BtreeHeader where
  root : Nat
  checksum : Nat
  length : Nat
deriving DecidableEq, Repr

/-- The sentinel checksum meaning "not yet computed" (`u128::MAX` in the
source). -/
def DEFERRED : Nat := 2 ^ 128 - 1

/-- Errors surfaced by the embedded operations: page-store I/O failures,
panics (`unreachable`, assertion failures), and fuel exhaustion of the
embedding's bounded recursion. -/
inductive Err where
  | io
  | fatal
  | fuel
deriving DecidableEq, Repr

/-- The page store (`TransactionalMemory`) together with the external
codec functions the tree consumes. `pages` maps live page numbers to
decoded content; `isUncommitted` is the store's `uncommitted` predicate;
`ioFail` injects `get_page`/`get_page_mut` failures; `allocFail` injects
allocation failures; `freedNow` records pages freed immediately
(`free`, or `free_if_uncommitted` returning true). `leafCk`/`branchCk`
model the external `leaf_checksum`/`branch_checksum` functions and
`requiredBytes` models `RawLeafBuilder::required_bytes` applied to a pair
count and a total key/value byte count. -/
structure Mem where
  pages : List (Nat × Node)
  isUncommitted : Nat → Bool
  pageSize : Nat
  nextFree : Nat
  ioFail : Nat → Bool
  allocFail : Bool
  freedNow : List Nat
  leafCk : List Entry → Except Err Nat
  branchCk : List (Nat × Nat) → List KeyBytes → Except Err Nat
  requiredBytes : Nat → Nat → Nat

/-- Store `node` at page `pn` in a page table. -/
def setEntry (ps : List (Nat × Node)) (pn : Nat) (node : Node) : List (Nat × Node) :=
  (pn, node) :: ps.filter (fun q => q.1 ≠ pn)

/-- `TransactionalMemory::get_page`: fails on injected I/O failure or a
missing page. -/
def Mem.getPage (m : Mem) (pn : Nat) : Except Err Node :=
  if m.ioFail pn then .error .io
  else
    match m.pages.lookup pn with
    | some node => .ok node
    | none => .error .io

/-- Overwrite the content of page `pn` (a write through
`get_page_mut`/`memory_mut`). -/
def Mem.setPage (m : Mem) (pn : Nat) (node : Node) : Mem :=
  { m with pages := setEntry m.pages pn node }

/-- Page allocation as performed by the leaf/branch builders' `build`:
returns a fresh page number holding `node`; the fresh page is uncommitted. -/
def Mem.allocPage (m : Mem) (node : Node) : Except Err (Nat × Mem) :=
  if m.allocFail then .error .io
  else
    .ok (m.nextFree,
      { m with
        pages := setEntry m.pages m.nextFree node
        nextFree := m.nextFree + 1
        isUncommitted := fun q => q == m.nextFree || m.isUncommitted q })

/-- `TransactionalMemory::free`: the page's storage is reclaimed
immediately; the embedding records it in `freedNow`. -/
def Mem.free (m : Mem) (pn : Nat) : Mem :=
  { m with freedNow := m.freedNow ++ [pn] }

/-- `TransactionalMemory::free_if_uncommitted`: frees the page and returns
true only when it is uncommitted. -/
def Mem.freeIfUncommitted (m : Mem) (pn : Nat) : Mem × Bool :=
  if m.isUncommitted pn then (m.free pn, true) else (m, false)

/-- The state a mutating tree operation threads: the page store, the
shared deferred-free list (`freed_pages`), and the in-memory root header
(`self.root`). -/
structure TS where
  mem : Mem
  freedPages : List Nat
  root : Option BtreeHeader

/-- `DeletionResult` from `btree.rs`. The `PartialLeaf` payload carries the
raw page bytes (modelled by the decoded node) and the index of the removed
pair. -/
inductive DeletionResult where
  | Subtree (page : Nat) (checksum : Nat)
  | DeletedLeaf
  | PartialLeaf (page : Node) (deleted_pair : Nat)
  | PartialBranch (page : Nat) (checksum : Nat)
  | DeletedBranch (page : Nat) (checksum : Nat)
deriving DecidableEq, Repr

/-- `LeafAccessor::length_of_pairs(i, j)`: total key/value byte length of
the pairs with indices in `[i, j)`. -/
def lengthOfPairs (entries : List Entry) (i j : Nat) : Nat :=
  (((entries.drop i).take (j - i)).map (fun e => e.key.length + e.value.length)).sum

/-- The `new_required_bytes` computed by the leaf arms of
`pop_*_from_node`: `RawLeafBuilder::required_bytes` applied to one fewer
pair and to the total pair bytes minus the bytes of the pair at
`position`. -/
def newRequiredBytes (m : Mem) (entries : List Entry) (position : Nat) : Nat :=
  m.requiredBytes (entries.length - 1)
    (lengthOfPairs entries 0 entries.length -
     lengthOfPairs entries position (position + 1))

/-- The page-release idiom repeated through `pop_*_from_node`:
`if modify_uncommitted, free_if_uncommitted else push to freed_pages;
if not modify_uncommitted, always push to freed_pages`. -/
def freeOrPush (ts : TS) (pn : Nat) (mu : Bool) : TS :=
  if mu then
    match ts.mem.freeIfUncommitted pn with
    | (m', true) => { ts with mem := m' }
    | (m', false) => { ts with mem := m', freedPages := ts.freedPages ++ [pn] }
  else
    { ts with freedPages := ts.freedPages ++ [pn] }

/-- The LEAF arm of `pop_last_from_node`: removes the last pair
(`position = num_pairs - 1`). Classifies the result (`DeletedLeaf` /
`PartialLeaf` below the one-third-page threshold / rebuilt `Subtree`
keeping pairs `0..num_pairs-1`), then frees the old leaf page immediately
when it is uncommitted and in-place modification is permitted, otherwise
pushes it onto the deferred `freed_pages` list, and returns the removed
pair as owned copies. -/
def popLastLeafStep (ts : TS) (pn : Nat) (entries : List Entry) (mu : Bool) :
    TS × Except Err (Option (DeletionResult × Entry)) :=
  if entries.length == 0 then (ts, .ok none)
  else
    let position := entries.length - 1
    let req := newRequiredBytes ts.mem entries position
    let uncommitted := ts.mem.isUncommitted pn
    match entries[position]? with
    | none => (ts, .error .fatal)
    | some entry =>
      match
        (if entries.length == 1 then (ts, .ok DeletionResult.DeletedLeaf)
         else if req < ts.mem.pageSize / 3 then
           (ts, .ok (DeletionResult.PartialLeaf (.leaf entries) position))
         else
           match ts.mem.allocPage (.leaf (entries.take (entries.length - 1))) with
           | .error e => (ts, .error e)
           | .ok (np, m') =>
             ({ ts with mem := m' }, .ok (DeletionResult.Subtree np DEFERRED))
         : TS × Except Err DeletionResult)
      with
      | (ts1, .error e) => (ts1, .error e)
      | (ts1, .ok dres) =>
        let ts2 :=
          if uncommitted && mu then { ts1 with mem := ts1.mem.free pn }
          else { ts1 with freedPages := ts1.freedPages ++ [pn] }
        (ts2, .ok (some (dres, entry)))

/-- The LEAF arm of `pop_first_from_node`: same as `popLastLeafStep` with
`position = 0`; the rebuilt leaf keeps pairs `1..num_pairs`. -/
def popFirstLeafStep (ts : TS) (pn : Nat) (entries : List Entry) (mu : Bool) :
    TS × Except Err (Option (DeletionResult × Entry)) :=
  if entries.length == 0 then (ts, .ok none)
  else
    let position := 0
    let req := newRequiredBytes ts.mem entries position
    let uncommitted := ts.mem.isUncommitted pn
    match entries[position]? with
    | none => (ts, .error .fatal)
    | some entry =>
      match
        (if entries.length == 1 then (ts, .ok DeletionResult.DeletedLeaf)
         else if req < ts.mem.pageSize / 3 then
           (ts, .ok (DeletionResult.PartialLeaf (.leaf entries) position))
         else
           match ts.mem.allocPage (.leaf (entries.drop 1)) with
           | .error e => (ts, .error e)
           | .ok (np, m') =>
             ({ ts with mem := m' }, .ok (DeletionResult.Subtree np DEFERRED))
         : TS × Except Err DeletionResult)
      with
      | (ts1, .error e) => (ts1, .error e)
      | (ts1, .ok dres) =>
        let ts2 :=
          if uncommitted && mu then { ts1 with mem := ts1.mem.free pn }
          else { ts1 with freedPages := ts1.freedPages ++ [pn] }
        (ts2, .ok (some (dres, entry)))

/-- The BRANCH arm of `pop_last_from_node` after the recursive call on the
last child (`child_index = count_children - 1`) returned `dres`:
- `Subtree`: patch the child pointer in place when the branch page is
  uncommitted and in-place modification is permitted, else rebuild with the
  child replaced and release the old page; re-wrap as `Subtree(_, DEFERRED)`;
- `DeletedLeaf` with exactly 2 children: release the branch page and
  collapse to `DeletedBranch(first child, its checksum)`;
- `DeletedLeaf` with more children: rebuild keeping children
  `0..count_children-1` and keys `0..count_children-2` (the source loop
  omits the last child and the last separator key), release the old page,
  yield `Subtree(new page, DEFERRED)`;
- anything else: pass up `PartialBranch(page, checksum)` unchanged. -/
def popLastBranchStep (ts : TS) (pn : Nat) (children : List (Nat × Nat))
    (keys : List KeyBytes) (checksum : Nat) (mu : Bool) (dres : DeletionResult) :
    TS × Except Err DeletionResult :=
  match dres with
  | .Subtree newChild newChildCk =>
    if ts.mem.isUncommitted pn && mu then
      match ts.mem.getPage pn with
      | .error e => (ts, .error e)
      | .ok (.branch cs ks) =>
        let patched := Node.branch (cs.set (children.length - 1) (newChild, newChildCk)) ks
        ({ ts with mem := ts.mem.setPage pn patched }, .ok (.Subtree pn DEFERRED))
      | .ok _ => (ts, .error .fatal)
    else
      match ts.mem.allocPage
          (.branch (children.set (children.length - 1) (newChild, newChildCk)) keys) with
      | .error e => (ts, .error e)
      | .ok (np, m') =>
        (freeOrPush { ts with mem := m' } pn mu, .ok (.Subtree np DEFERRED))
  | .DeletedLeaf =>
    if children.length == 2 then
      match children[0]? with
      | some (c0, ck0) => (freeOrPush ts pn mu, .ok (.DeletedBranch c0 ck0))
      | none => (ts, .error .fatal)
    else
      match ts.mem.allocPage (.branch children.dropLast keys.dropLast) with
      | .error e => (ts, .error e)
      | .ok (np, m') =>
        (freeOrPush { ts with mem := m' } pn mu, .ok (.Subtree np DEFERRED))
  | _ => (ts, .ok (.PartialBranch pn checksum))

/-- The BRANCH arm of `pop_first_from_node` after the recursive call on the
first child (`child_index = 0`) returned `dres`. Mirrors `popLastBranchStep`
except: the patched/replaced child is at index 0; the 2-children collapse
keeps the second child; and the rebuild for `DeletedLeaf` keeps children
`1..count_children` while its key loop pushes `key(i - 2)` for
`i in 2..count_children`, i.e. it keeps keys `0..count_children-2` and
omits the LAST separator key, not the first. -/
def popFirstBranchStep (ts : TS) (pn : Nat) (children : List (Nat × Nat))
    (keys : List KeyBytes) (checksum : Nat) (mu : Bool) (dres : DeletionResult) :
    TS × Except Err DeletionResult :=
  match dres with
  | .Subtree newChild newChildCk =>
    if ts.mem.isUncommitted pn && mu then
      match ts.mem.getPage pn with
      | .error e => (ts, .error e)
      | .ok (.branch cs ks) =>
        let patched := Node.branch (cs.set 0 (newChild, newChildCk)) ks
        ({ ts with mem := ts.mem.setPage pn patched }, .ok (.Subtree pn DEFERRED))
      | .ok _ => (ts, .error .fatal)
    else
      match ts.mem.allocPage
          (.branch (children.set 0 (newChild, newChildCk)) keys) with
      | .error e => (ts, .error e)
      | .ok (np, m') =>
        (freeOrPush { ts with mem := m' } pn mu, .ok (.Subtree np DEFERRED))
  | .DeletedLeaf =>
    if children.length == 2 then
      match children[1]? with
      | some (c1, ck1) => (freeOrPush ts pn mu, .ok (.DeletedBranch c1 ck1))
      | none => (ts, .error .fatal)
    else
      match ts.mem.allocPage (.branch (children.drop 1) keys.dropLast) with
      | .error e => (ts, .error e)
      | .ok (np, m') =>
        (freeOrPush { ts with mem := m' } pn mu, .ok (.Subtree np DEFERRED))
  | _ => (ts, .ok (.PartialBranch pn checksum))

/-- `pop_last_from_node`: at a leaf, `popLastLeafStep`; at a branch,
recurse into the last child and then apply `popLastBranchStep` to the
child's result. Recursion is bounded by fuel. -/
def popLastFromNode : Nat → TS → Nat → Nat → Bool →
    TS × Except Err (Option (DeletionResult × Entry))
  | 0, ts, _, _, _ => (ts, .error .fuel)
  | fuel + 1, ts, pn, checksum, mu =>
    match ts.mem.getPage pn with
    | .error e => (ts, .error e)
    | .ok (.leaf entries) => popLastLeafStep ts pn entries mu
    | .ok (.branch children keys) =>
      match children[children.length - 1]? with
      | none => (ts, .error .fatal)
      | some (childPn, childCk) =>
        match popLastFromNode fuel ts childPn childCk mu with
        | (ts', .error e) => (ts', .error e)
        | (ts', .ok none) => (ts', .ok none)
        | (ts', .ok (some (dres, entry))) =>
          match popLastBranchStep ts' pn children keys checksum mu dres with
          | (ts2, .error e) => (ts2, .error e)
          | (ts2, .ok finalRes) => (ts2, .ok (some (finalRes, entry)))
    | .ok .corrupt => (ts, .error .fatal)

/-- `pop_first_from_node`: at a leaf, `popFirstLeafStep`; at a branch,
recurse into the first child and then apply `popFirstBranchStep` to the
child's result. -/
def popFirstFromNode : Nat → TS → Nat → Nat → Bool →
    TS × Except Err (Option (DeletionResult × Entry))
  | 0, ts, _, _, _ => (ts, .error .fuel)
  | fuel + 1, ts, pn, checksum, mu =>
    match ts.mem.getPage pn with
    | .error e => (ts, .error e)
    | .ok (.leaf entries) => popFirstLeafStep ts pn entries mu
    | .ok (.branch children keys) =>
      match children[0]? with
      | none => (ts, .error .fatal)
      | some (childPn, childCk) =>
        match popFirstFromNode fuel ts childPn childCk mu with
        | (ts', .error e) => (ts', .error e)
        | (ts', .ok none) => (ts', .ok none)
        | (ts', .ok (some (dres, entry))) =>
          match popFirstBranchStep ts' pn children keys checksum mu dres with
          | (ts2, .error e) => (ts2, .error e)
          | (ts2, .ok finalRes) => (ts2, .ok (some (finalRes, entry)))
    | .ok .corrupt => (ts, .error .fatal)

/-- Shared root handling of `pop_last_helper`/`pop_first_helper` applied to
the deletion result `dres` coming back from the recursion: computes
`new_length = length - 1`; `Subtree`/`PartialBranch` become the new root
header; `DeletedLeaf` empties the tree; `DeletedBranch` promotes the
remaining child; `PartialLeaf` finishes the deferred rebuild by building a
leaf with the deleted pair excluded (asserting the length bookkeeping). -/
def popRootFinish (ts' : TS) (h : BtreeHeader) (dres : DeletionResult)
    (entry : Entry) : TS × Except Err (Option Entry) :=
  let newLength := h.length - 1
  match dres with
  | .Subtree p ck =>
    ({ ts' with root := some ⟨p, ck, newLength⟩ }, .ok (some entry))
  | .DeletedLeaf => ({ ts' with root := none }, .ok (some entry))
  | .PartialLeaf pg deleted =>
    match pg with
    | .leaf es =>
      match ts'.mem.allocPage (.leaf (es.eraseIdx deleted)) with
      | .error e => (ts', .error e)
      | .ok (np, m') =>
        if newLength == es.length - 1 then
          ({ ts' with mem := m', root := some ⟨np, DEFERRED, newLength⟩ },
           .ok (some entry))
        else ({ ts' with mem := m' }, .error .fatal)
    | _ => (ts', .error .fatal)
  | .PartialBranch p ck =>
    ({ ts' with root := some ⟨p, ck, newLength⟩ }, .ok (some entry))
  | .DeletedBranch p ck =>
    ({ ts' with root := some ⟨p, ck, newLength⟩ }, .ok (some entry))

/-- `pop_last_helper`: returns `none` on an empty tree (no root header);
otherwise runs `pop_last_from_node` on the root page and installs the new
root header per `popRootFinish`. `mu` is `self.modify_uncommitted`, which
`BtreeMut::new` sets to `true`. -/
def popLastHelper (fuel : Nat) (ts : TS) (mu : Bool) :
    TS × Except Err (Option Entry) :=
  match ts.root with
  | none => (ts, .ok none)
  | some h =>
    match popLastFromNode fuel ts h.root h.checksum mu with
    | (ts', .error e) => (ts', .error e)
    | (ts', .ok none) => (ts', .ok none)
    | (ts', .ok (some (dres, entry))) => popRootFinish ts' h dres entry

/-- `pop_first_helper`: same as `popLastHelper` over `pop_first_from_node`. -/
def popFirstHelper (fuel : Nat) (ts : TS) (mu : Bool) :
    TS × Except Err (Option Entry) :=
  match ts.root with
  | none => (ts, .ok none)
  | some h =>
    match popFirstFromNode fuel ts h.root h.checksum mu with
    | (ts', .error e) => (ts', .error e)
    | (ts', .ok none) => (ts', .ok none)
    | (ts', .ok (some (dres, entry))) => popRootFinish ts' h dres entry

/-- The child loop of `relocate_helper` at a branch: run the relocation
recursion (`go`) on each child in order; a child that moved has its
(page number, checksum) entry rewritten (`BranchMutator::write_child_page`);
the resulting child list is what ends up written in the copied page. -/
def relocateChildren (go : TS → Nat → TS × Except Err (Option (Nat × Nat)))
    (ts : TS) : List (Nat × Nat) → TS × Except Err (List (Nat × Nat))
  | [] => (ts, .ok [])
  | (c, ck) :: rest =>
    match go ts c with
    | (ts', .error e) => (ts', .error e)
    | (ts', .ok none) =>
      match relocateChildren go ts' rest with
      | (ts2, .error e) => (ts2, .error e)
      | (ts2, .ok tail) => (ts2, .ok ((c, ck) :: tail))
    | (ts', .ok (some (nc, nck))) =>
      match relocateChildren go ts' rest with
      | (ts2, .error e) => (ts2, .error e)
      | (ts2, .ok tail) => (ts2, .ok ((nc, nck) :: tail))

/-- `UntypedBtreeMut::relocate_helper`: a page absent from the relocation
map is left alone (`Ok(None)`, no descent); otherwise the page content is
copied to the pre-allocated target page, branch children are recursively
relocated and their rewritten entries stored in the copy, and the source
page is freed immediately if uncommitted, else pushed onto the deferred
`freed_pages` list; returns the target page paired with `DEFERRED`. -/
def relocateHelper : Nat → TS → Nat → List (Nat × Nat) →
    TS × Except Err (Option (Nat × Nat))
  | 0, ts, _, _ => (ts, .error .fuel)
  | fuel + 1, ts, pn, rmap =>
    match ts.mem.getPage pn with
    | .error e => (ts, .error e)
    | .ok oldNode =>
      match rmap.lookup pn with
      | none => (ts, .ok none)
      | some newPn =>
        if ts.mem.ioFail newPn then (ts, .error .io)
        else
          let ts1 : TS := { ts with mem := ts.mem.setPage newPn oldNode }
          match oldNode with
          | .leaf _ => (freeOrPush ts1 pn true, .ok (some (newPn, DEFERRED)))
          | .branch children keys =>
            match relocateChildren (fun s c => relocateHelper fuel s c rmap)
                ts1 children with
            | (ts2, .error e) => (ts2, .error e)
            | (ts2, .ok newChildren) =>
              let copy := Node.branch newChildren keys
              let ts3 : TS := { ts2 with mem := ts2.mem.setPage newPn copy }
              (freeOrPush ts3 pn true, .ok (some (newPn, DEFERRED)))
          | .corrupt => (ts1, .error .fatal)

/-- The expected content of a relocated page, per the specification: a
copy of the original node in which each branch child that is itself a key
of the relocation map is rewritten to its target page with a `DEFERRED`
checksum; children absent from the map keep their page and stored
checksum. -/
def relocNode (rmap : List (Nat × Nat)) : Node → Node
  | .leaf es => .leaf es
  | .branch cs ks =>
    .branch (cs.map (fun c =>
      match rmap.lookup c.1 with
      | some nc => (nc, DEFERRED)
      | none => c)) ks
  | .corrupt => .corrupt

/-- `UntypedBtreeMut::relocate`: relocates the subtree under the root and
replaces the root header (same length, `DEFERRED` checksum) exactly when
the root page itself moved, returning whether it did. -/
def relocate (fuel : Nat) (ts : TS) (rmap : List (Nat × Nat)) :
    TS × Except Err Bool :=
  match ts.root with
  | none => (ts, .ok false)
  | some h =>
    match relocateHelper fuel ts h.root rmap with
    | (ts', .error e) => (ts', .error e)
    | (ts', .ok none) => (ts', .ok false)
    | (ts', .ok (some (newRoot, newCk))) =>
      ({ ts' with root := some ⟨newRoot, newCk, h.length⟩ }, .ok true)

/-- The child loop of `finalize_dirty_checksums_helper` at a branch: a
child that is still uncommitted is descended into (`go`) and gets its
freshly computed checksum; a committed child is skipped and keeps its
stored checksum. The collected list is what `BranchMutator` writes back
into the parent page. -/
def finalizeChildren (go : Mem → Nat → Mem × Except Err Nat) (m : Mem) :
    List (Nat × Nat) → Mem × Except Err (List (Nat × Nat))
  | [] => (m, .ok [])
  | (c, ck) :: rest =>
    if m.isUncommitted c then
      match go m c with
      | (m', .error e) => (m', .error e)
      | (m', .ok newCk) =>
        match finalizeChildren go m' rest with
        | (m2, .error e) => (m2, .error e)
        | (m2, .ok tail) => (m2, .ok ((c, newCk) :: tail))
    else
      match finalizeChildren go m rest with
      | (m2, .error e) => (m2, .error e)
      | (m2, .ok tail) => (m2, .ok ((c, ck) :: tail))

/-- `UntypedBtreeMut::finalize_dirty_checksums_helper`: asserts the page is
uncommitted; a leaf yields `leaf_checksum`; a branch first finalizes its
uncommitted children, writes the new child checksums back into the page,
and only then computes `branch_checksum` over the updated page. -/
def finalizeHelper : Nat → Mem → Nat → Mem × Except Err Nat
  | 0, m, _ => (m, .error .fuel)
  | fuel + 1, m, pn =>
    if ¬ m.isUncommitted pn then (m, .error .fatal)
    else
      match m.getPage pn with
      | .error e => (m, .error e)
      | .ok (.leaf es) => (m, m.leafCk es)
      | .ok (.branch children keys) =>
        match finalizeChildren (finalizeHelper fuel) m children with
        | (m', .error e) => (m', .error e)
        | (m', .ok newChildren) =>
          let m2 := m'.setPage pn (.branch newChildren keys)
          (m2, m2.branchCk newChildren keys)
      | .ok .corrupt => (m, .error .fatal)

/-- `UntypedBtreeMut::finalize_dirty_checksums`: an empty tree or a
committed root page is returned unchanged with no work done; otherwise the
helper recomputes the root checksum and the stored header is updated with
it (root page and length unchanged). -/
def finalizeDirtyChecksums (fuel : Nat) (ts : TS) :
    TS × Except Err (Option BtreeHeader) :=
  match ts.root with
  | none => (ts, .ok none)
  | some h =>
    if ¬ ts.mem.isUncommitted h.root then (ts, .ok (some h))
    else
      match finalizeHelper fuel ts.mem h.root with
      | (m', .error e) => ({ ts with mem := m' }, .error e)
      | (m', .ok ck) =>
        ({ ts with mem := m', root := some ⟨h.root, ck, h.length⟩ },
         .ok (some ⟨h.root, ck, h.length⟩))

/-- The child loop of `RawBtree::verify_checksum_helper`: verify children
left to right, short-circuiting to `false` on the first failed child. -/
def verifyChildren (go : Nat → Nat → Except Err Bool) :
    List (Nat × Nat) → Except Err Bool
  | [] => .ok true
  | (c, ck) :: rest =>
    match go c ck with
    | .error e => .error e
    | .ok false => .ok false
    | .ok true => verifyChildren go rest

/-- `RawBtree::verify_checksum_helper`: recompute a page's checksum and
compare it to the expected one; a failed checksum computation or an
unrecognized node-type byte yields `false`; a branch whose own checksum
matches recurses into every child with the stored per-child checksum as
the expectation. -/
def verifyChecksumHelper : Nat → Mem → Nat → Nat → Except Err Bool
  | 0, _, _, _ => .error .fuel
  | fuel + 1, m, pn, expected =>
    match m.getPage pn with
    | .error e => .error e
    | .ok (.leaf es) =>
      match m.leafCk es with
      | .ok computed => .ok (expected == computed)
      | .error _ => .ok false
    | .ok (.branch children keys) =>
      match m.branchCk children keys with
      | .error _ => .ok false
      | .ok computed =>
        if expected ≠ computed then .ok false
        else verifyChildren (fun c ck => verifyChecksumHelper fuel m c ck) children
    | .ok .corrupt => .ok false

/-- `RawBtree::verify_checksum`: `true` for an empty tree, else the
recursive helper starting from the root header's page and checksum. -/
def verifyChecksum (fuel : Nat) (root : Option BtreeHeader) (m : Mem) :
    Except Err Bool :=
  match root with
  | none => .ok true
  | some h => verifyChecksumHelper fuel m h.root h.checksum

/-- Declarative integrity statement used to check `verify_checksum`
against its specification: every page reachable from `pn` decodes as a
leaf or a branch and its recomputed checksum equals the stored expected
one (`ck` for the root of the subtree, the per-child checksum fields for
branch children). -/
inductive ChecksumOkay (m : Mem) : Nat → Nat → Prop
  | leaf {pn ck es} : m.getPage pn = .ok (.leaf es) → m.leafCk es = .ok ck →
      ChecksumOkay m pn ck
  | branch {pn ck cs ks} : m.getPage pn = .ok (.branch cs ks) →
      m.branchCk cs ks = .ok ck →
      (∀ c cck, (c, cck) ∈ cs → ChecksumOkay m c cck) →
      ChecksumOkay m pn ck

/-- Concatenate the in-order entry sequences of a branch's children. -/
def inorderChildren (go : Mem → Nat → Except Err (List Entry)) (m : Mem) :
    List (Nat × Nat) → Except Err (List Entry)
  | [] => .ok []
  | (c, _) :: rest =>
    match go m c with
    | .error e => .error e
    | .ok l =>
      match inorderChildren go m rest with
      | .error e => .error e
      | .ok l' => .ok (l ++ l')

/-- The ordered key/value sequence stored in the subtree rooted at `pn`
(the sequence a full range scan yields): leaf entries in page order,
branch children concatenated left to right. This is the reference
abstraction the pop operations are checked against. -/
def inorderEntries : Nat → Mem → Nat → Except Err (List Entry)
  | 0, _, _ => .error .fuel
  | fuel + 1, m, pn =>
    match m.getPage pn with
    | .error e => .error e
    | .ok (.leaf es) => .ok es
    | .ok (.branch cs _) => inorderChildren (inorderEntries fuel) m cs
    | .ok .corrupt => .error .fatal

/-- Lexicographic strict order on encoded byte strings (the ordering
contract of §6: byte-wise comparison agreeing with logical order). -/
def bytesLt : List Nat → List Nat → Bool
  | [], [] => false
  | [], _ :: _ => true
  | _ :: _, [] => false
  | a :: as, b :: bs => if a < b then true else if b < a then false else bytesLt as bs

/-- Insert into the sorted pair list of a leaf, replacing an equal key;
returns the previous value for that key. -/
def sortedInsert (k : KeyBytes) (v : ValBytes) :
    List Entry → List Entry × Option ValBytes
  | [] => ([⟨k, v⟩], none)
  | e :: rest =>
    if e.key = k then (⟨k, v⟩ :: rest, some e.value)
    else if bytesLt k e.key then (⟨k, v⟩ :: e :: rest, none)
    else
      let (tail, old) := sortedInsert k v rest
      (e :: tail, old)

/-- Modelled from the spec: `MutateHelper::insert` (`btree_mutator.rs`),
the single-key insert state machine, is an external collaborator not
present in the sources. The spec fixes its contract: it performs the
classic descend/split/propagate insertion through the fallible page
store, returns the previous value for the key, and "any page-store I/O
failure (`get_page`, `get_page_mut`, allocation) aborts the current
operation and is surfaced to the caller — no partial application of a
structural change is committed to the in-memory header". The model keeps
that contract while abstracting page splitting (content kept in a single
leaf): the old root page is released using the usual
free-if-uncommitted-else-defer rule and the header is replaced only after
every fallible step has succeeded. -/
def mutateInsert (ts : TS) (k : KeyBytes) (v : ValBytes) :
    TS × Except Err (Option ValBytes) :=
  match ts.root with
  | none =>
    match ts.mem.allocPage (.leaf [⟨k, v⟩]) with
    | .error e => (ts, .error e)
    | .ok (np, m') =>
      ({ ts with mem := m', root := some ⟨np, DEFERRED, 1⟩ }, .ok none)
  | some h =>
    match ts.mem.getPage h.root with
    | .error e => (ts, .error e)
    | .ok (.leaf es) =>
      match sortedInsert k v es with
      | (es', old) =>
        match ts.mem.allocPage (.leaf es') with
        | .error e => (ts, .error e)
        | .ok (np, m') =>
          let ts1 := freeOrPush { ts with mem := m' } h.root true
          let newLen := if old.isNone then h.length + 1 else h.length
          ({ ts1 with root := some ⟨np, DEFERRED, newLen⟩ }, .ok old)
    | .ok _ => (ts, .error .fatal)

/-- A concrete page store used by witnesses and counterexamples: no
injected failures, simple concrete codec parameters. -/
def mkMem (ps : List (Nat × Node)) (unc : Nat → Bool) (psize nf : Nat) : Mem :=
  { pages := ps
    isUncommitted := unc
    pageSize := psize
    nextFree := nf
    ioFail := fun _ => false
    allocFail := false
    freedNow := []
    leafCk := fun es => .ok (es.length + 100)
    branchCk := fun cs ks => .ok (7 * cs.length + ks.length)
    requiredBytes := fun n kv => 2 * n + kv }

/-- The entries of the concrete leaf used by witnesses: keys 1, 3, 5 with
values 10, 30, 50. -/
def popEntries : List Entry := [⟨[1], [10]⟩, ⟨[3], [30]⟩, ⟨[5], [50]⟩]

/-- Concrete single-leaf tree holding `popEntries`: root page 1, committed,
length 3. Used by witnesses. -/
def tsPop : TS :=
  { mem := mkMem [(1, .leaf popEntries)] (fun _ => false) 12 2
    freedPages := []
    root := some ⟨1, 77, 3⟩ }

/-- A state with an empty page table used when evaluating single steps on
explicitly supplied node data. -/
def tsBare : TS :=
  { mem := mkMem [] (fun _ => false) 12 10
    freedPages := []
    root := none }

/-- A two-level dirty tree for the finalize witness: uncommitted root
branch page 1 over uncommitted leaf page 2 and committed leaf page 3
(stored child checksum 5). -/
def tsDirty : TS :=
  { mem := mkMem
      [(1, .branch [(2, DEFERRED), (3, 5)] [[9]]),
       (2, .leaf [⟨[1], [2]⟩]),
       (3, .leaf [⟨[9], [9]⟩])]
      (fun p => p == 1 || p == 2) 12 4
    freedPages := []
    root := some ⟨1, 77, 2⟩ }

/-- A committed two-leaf tree used by the relocation witness: branch root
page 1 over leaf pages 2 and 3; the relocation map moves pages 1 and 10,
2 and 20 while page 3 stays. -/
def tsReloc : TS :=
  { mem := mkMem
      [(1, .branch [(2, 11), (3, 12)] [[5]]),
       (2, .leaf [⟨[1], [2]⟩]),
       (3, .leaf [⟨[7], [8]⟩])]
      (fun _ => false) 12 30
    freedPages := []
    root := some ⟨1, 77, 2⟩ }

/-- `tsPop` with an injected I/O failure on its root page, used to witness
the error-handling claim. -/
def tsFail : TS :=
  { mem := { mkMem [(1, .leaf popEntries)] (fun _ => false) 12 2 with
      ioFail := fun p => p == 1 }
    freedPages := []
    root := some ⟨1, 77, 3⟩ }

/-- Modelled from the spec: `MutateHelper::delete` (`btree_mutator.rs`),
the single-key delete state machine, external to the sources; same
contract as `mutateInsert` (see its docstring). Deleting an absent key is
a no-op returning `none`; deleting the last pair empties the tree. -/
def mutateDelete (ts : TS) (k : KeyBytes) :
    TS × Except Err (Option ValBytes) :=
  match ts.root with
  | none => (ts, .ok none)
  | some h =>
    match ts.mem.getPage h.root with
    | .error e => (ts, .error e)
    | .ok (.leaf es) =>
      match (es.map (fun e => (e.key, e.value))).lookup k with
      | none => (ts, .ok none)
      | some oldV =>
        let es' := es.filter (fun e => e.key ≠ k)
        if es'.isEmpty then
          let ts1 := freeOrPush ts h.root true
          ({ ts1 with root := none }, .ok (some oldV))
        else
          match ts.mem.allocPage (.leaf es') with
          | .error e => (ts, .error e)
          | .ok (np, m') =>
            let ts1 := freeOrPush { ts with mem := m' } h.root true
            ({ ts1 with root := some ⟨np, DEFERRED, h.length - 1⟩ },
             .ok (some oldV))
    | .ok _ => (ts, .error .fatal)

end Redb

namespace LRU

/-- `LRUCache` from `lru_cache.rs`: `cache` models the `HashMap<u64, T>`
as an association list, `lru_queue` the `VecDeque<u64>` (front first). -/
structure LRUCache (T : Type) where
  cache : List (Nat × T)
  lru_queue : List Nat

/-- `HashMap::get`. -/
def mapLookup {T : Type} (m : List (Nat × T)) (k : Nat) : Option T :=
  m.lookup k

/-- `HashMap::insert`: replaces the value at `k` (keeping the key set
otherwise unchanged) and returns the previous value. -/
def mapInsert {T : Type} (m : List (Nat × T)) (k : Nat) (v : T) :
    List (Nat × T) × Option T :=
  ((k, v) :: m.filter (fun q => q.1 ≠ k), mapLookup m k)

/-- `HashMap::remove`: removes the binding at `k` and returns it. -/
def mapRemove {T : Type} (m : List (Nat × T)) (k : Nat) :
    List (Nat × T) × Option T :=
  (m.filter (fun q => q.1 ≠ k), mapLookup m k)

/-- Remove the first occurrence of `k` from the queue
(`iter().position(..)` followed by `remove(pos)`). -/
def eraseFirst (q : List Nat) (k : Nat) : List Nat :=
  match q with
  | [] => []
  | x :: rest => if x = k then rest else x :: eraseFirst rest k

/-- `LRUCache::new`. -/
def LRUCache.new (T : Type) : LRUCache T := ⟨[], []⟩

/-- `LRUCache::len`. -/
def LRUCache.len {T : Type} (c : LRUCache T) : Nat := c.cache.length

/-- `LRUCache::insert`: inserts into the map; enqueues the key only when it
was not present; returns the previous value. -/
def LRUCache.insert {T : Type} (c : LRUCache T) (k : Nat) (v : T) :
    LRUCache T × Option T :=
  let (m, old) := mapInsert c.cache k v
  if old.isNone then (⟨m, c.lru_queue ++ [k]⟩, old)
  else (⟨m, c.lru_queue⟩, old)

/-- `LRUCache::remove`: removes from the map and, when present, removes the
key's first queue occurrence. -/
def LRUCache.remove {T : Type} (c : LRUCache T) (k : Nat) :
    LRUCache T × Option T :=
  match mapLookup c.cache k with
  | some v => (⟨(mapRemove c.cache k).1, eraseFirst c.lru_queue k⟩, some v)
  | none => (c, none)

/-- `LRUCache::get`. -/
def LRUCache.get {T : Type} (c : LRUCache T) (k : Nat) : Option T :=
  mapLookup c.cache k

/-- `LRUCache::get_mut`: hands out the value at `k` for in-place update;
modelled as applying an update function to the stored value, which leaves
the key set and the queue unchanged. -/
def LRUCache.get_mut {T : Type} (c : LRUCache T) (k : Nat) (f : T → T) :
    LRUCache T × Option T :=
  match mapLookup c.cache k with
  | some v => (⟨(mapInsert c.cache k (f v)).1, c.lru_queue⟩, some v)
  | none => (c, none)

/-- `LRUCache::pop_lowest_priority`: pops queue keys from the front until
one is found in the map (the retry branch), removing and returning that
entry; `none` when the queue runs out. -/
def LRUCache.pop_lowest_priority {T : Type} :
    LRUCache T → Option (Nat × T) × LRUCache T
  | ⟨cache, []⟩ => (none, ⟨cache, []⟩)
  | ⟨cache, k :: rest⟩ =>
    match mapRemove cache k with
    | (m, some v) => (some (k, v), ⟨m, rest⟩)
    | (_, none) => pop_lowest_priority ⟨cache, rest⟩

/-- `LRUCache::clear`. -/
def LRUCache.clear {T : Type} (_c : LRUCache T) : LRUCache T := ⟨[], []⟩

/-- The structural invariant of `LRUCache`: the eviction queue holds each
key at most once, and it holds exactly the keys present in the cache map. -/
def Inv {T : Type} (c : LRUCache T) : Prop :=
  c.lru_queue.Nodup ∧ ∀ k : Nat, k ∈ c.lru_queue ↔ (mapLookup c.cache k).isSome

end LRU

namespace LRU

theorem lookup_filterKey_self {T : Type} (m : List (Nat × T)) (k : Nat) :
    (m.filter (fun q => q.1 ≠ k)).lookup k = none := by
  induction m with
  | nil => rfl
  | cons e rest ih =>
    obtain ⟨a, b⟩ := e
    by_cases h : a = k
    · rw [List.filter_cons_of_neg (by simp [h])]
      exact ih
    · have hb : (k == a) = false := beq_eq_false_iff_ne.mpr (Ne.symm h)
      rw [List.filter_cons_of_pos (by simp [h]), List.lookup_cons]
      simp only [hb]
      exact ih

theorem lookup_filterKey_ne {T : Type} (m : List (Nat × T)) {k k' : Nat}
    (h : k' ≠ k) : (m.filter (fun q => q.1 ≠ k)).lookup k' = m.lookup k' := by
  induction m with
  | nil => rfl
  | cons e rest ih =>
    obtain ⟨a, b⟩ := e
    by_cases he : a = k
    · have hb : (k' == a) = false := beq_eq_false_iff_ne.mpr (he ▸ h)
      rw [List.filter_cons_of_neg (by simp [he]), List.lookup_cons]
      simp only [hb]
      exact ih
    · rw [List.filter_cons_of_pos (by simp [he]), List.lookup_cons,
        List.lookup_cons]
      cases hkk : (k' == a) with
      | true => rfl
      | false => exact ih

theorem eraseFirst_eq_erase (q : List Nat) (k : Nat) :
    eraseFirst q k = q.erase k := by
  induction q with
  | nil => rfl
  | cons x rest ih =>
    by_cases h : x = k
    · subst h
      simp [eraseFirst, List.erase_cons_head]
    · have hb : (x == k) = false := beq_eq_false_iff_ne.mpr h
      rw [List.erase_cons_tail (by simp [hb])]
      simp only [eraseFirst, if_neg h]
      rw [ih]

theorem mapLookup_insert {T : Type} (m : List (Nat × T)) (k k' : Nat) (v : T) :
    mapLookup (mapInsert m k v).1 k' =
      if k' = k then some v else mapLookup m k' := by
  unfold mapInsert mapLookup
  rw [List.lookup_cons]
  by_cases h : k' = k
  · simp [h]
  · have hb : (k' == k) = false := beq_eq_false_iff_ne.mpr h
    simp only [hb, if_neg h]
    exact lookup_filterKey_ne m h

theorem mapLookup_remove {T : Type} (m : List (Nat × T)) (k k' : Nat) :
    mapLookup (mapRemove m k).1 k' =
      if k' = k then none else mapLookup m k' := by
  unfold mapRemove mapLookup
  by_cases h : k' = k
  · simp only [h, if_pos rfl]
    exact lookup_filterKey_self m k
  · simp only [if_neg h]
    exact lookup_filterKey_ne m h

theorem inv_new (T : Type) : Inv (LRUCache.new T) := by
  refine ⟨List.nodup_nil, ?_⟩
  intro k
  simp [LRUCache.new, mapLookup]

theorem inv_clear {T : Type} (c : LRUCache T) : Inv c.clear := by
  refine ⟨List.nodup_nil, ?_⟩
  intro k
  simp [LRUCache.clear, mapLookup]

theorem inv_insert {T : Type} {c : LRUCache T} (hinv : Inv c) (k : Nat) (v : T) :
    Inv (c.insert k v).1 := by
  obtain ⟨hnd, hmem⟩ := hinv
  cases hold : mapLookup c.cache k with
  | none =>
    have hk : k ∉ c.lru_queue := by
      intro hc
      have := (hmem k).mp hc
      rw [hold] at this
      simp at this
    have hstep : (c.insert k v).1 =
        ⟨(mapInsert c.cache k v).1, c.lru_queue ++ [k]⟩ := by
      simp [LRUCache.insert, mapInsert, hold]
    rw [hstep]
    constructor
    · rw [List.nodup_append]
      refine ⟨hnd, List.nodup_singleton k, ?_⟩
      intro x hx hxk
      rw [List.mem_singleton] at hxk
      exact hk (hxk ▸ hx)
    · intro k'
      simp only [List.mem_append, List.mem_singleton]
      rw [mapLookup_insert]
      by_cases h : k' = k
      · simp [h]
      · simp [h, hmem k']
  | some old =>
    have hstep : (c.insert k v).1 = ⟨(mapInsert c.cache k v).1, c.lru_queue⟩ := by
      simp [LRUCache.insert, mapInsert, hold]
    rw [hstep]
    refine ⟨hnd, ?_⟩
    intro k'
    rw [mapLookup_insert]
    by_cases h : k' = k
    · subst h
      have := hmem k'
      rw [hold] at this
      simpa using this
    · simp [h, hmem k']

theorem inv_remove {T : Type} {c : LRUCache T} (hinv : Inv c) (k : Nat) :
    Inv (c.remove k).1 := by
  obtain ⟨hnd, hmem⟩ := hinv
  cases hold : mapLookup c.cache k with
  | none =>
    have hstep : (c.remove k).1 = c := by
      simp [LRUCache.remove, hold]
    rw [hstep]
    exact ⟨hnd, hmem⟩
  | some v =>
    have hstep : (c.remove k).1 =
        ⟨(mapRemove c.cache k).1, eraseFirst c.lru_queue k⟩ := by
      simp [LRUCache.remove, hold]
    rw [hstep]
    constructor
    · rw [eraseFirst_eq_erase]
      exact hnd.erase k
    · intro k'
      rw [eraseFirst_eq_erase, mapLookup_remove]
      by_cases h : k' = k
      · subst h
        simp [List.Nodup.mem_erase_iff hnd]
      · rw [List.Nodup.mem_erase_iff hnd]
        simp [h, hmem k']

theorem inv_get_mut {T : Type} {c : LRUCache T} (hinv : Inv c) (k : Nat)
    (f : T → T) : Inv (c.get_mut k f).1 := by
  obtain ⟨hnd, hmem⟩ := hinv
  cases hold : mapLookup c.cache k with
  | none =>
    have hstep : (c.get_mut k f).1 = c := by
      simp [LRUCache.get_mut, hold]
    rw [hstep]
    exact ⟨hnd, hmem⟩
  | some v =>
    have hstep : (c.get_mut k f).1 =
        ⟨(mapInsert c.cache k (f v)).1, c.lru_queue⟩ := by
      simp [LRUCache.get_mut, hold]
    rw [hstep]
    refine ⟨hnd, ?_⟩
    intro k'
    rw [mapLookup_insert]
    by_cases h : k' = k
    · subst h
      have := hmem k'
      rw [hold] at this
      simpa using this
    · simp [h, hmem k']

theorem pop_cons {T : Type} (cache : List (Nat × T)) (k : Nat)
    (rest : List Nat) :
    LRUCache.pop_lowest_priority ⟨cache, k :: rest⟩ =
      (match mapRemove cache k with
       | (m, some v) => (some (k, v), (⟨m, rest⟩ : LRUCache T))
       | (_, none) => LRUCache.pop_lowest_priority ⟨cache, rest⟩) := by
  rw [LRUCache.pop_lowest_priority]

theorem pop_step {T : Type} {c : LRUCache T} (hinv : Inv c) {k : Nat}
    {rest : List Nat} (hq : c.lru_queue = k :: rest) :
    ∃ v, mapLookup c.cache k = some v ∧
      c.pop_lowest_priority = (some (k, v), ⟨(mapRemove c.cache k).1, rest⟩) := by
  obtain ⟨hnd, hmem⟩ := hinv
  have hk : (mapLookup c.cache k).isSome := by
    refine (hmem k).mp ?_
    rw [hq]
    exact List.mem_cons_self k rest
  obtain ⟨v, hv⟩ := Option.isSome_iff_exists.mp hk
  refine ⟨v, hv, ?_⟩
  obtain ⟨cache, q⟩ := c
  simp only at hq hv
  subst hq
  have hrem : mapRemove cache k = (cache.filter (fun q => q.1 ≠ k), some v) := by
    unfold mapRemove
    rw [hv]
  rw [pop_cons, hrem]

theorem inv_pop {T : Type} {c : LRUCache T} (hinv : Inv c) :
    Inv c.pop_lowest_priority.2 := by
  obtain ⟨hnd, hmem⟩ := hinv
  cases hq : c.lru_queue with
  | nil =>
    have hstep : c.pop_lowest_priority = (none, c) := by
      obtain ⟨cache, q⟩ := c
      simp only at hq
      subst hq
      simp [LRUCache.pop_lowest_priority]
    rw [hstep]
    exact ⟨by rw [hq]; exact List.nodup_nil, hmem⟩
  | cons k rest =>
    obtain ⟨v, hv, hstep⟩ := pop_step ⟨hnd, hmem⟩ hq
    rw [hstep]
    have hnd' : k ∉ rest ∧ rest.Nodup := by
      rw [hq] at hnd
      exact List.nodup_cons.mp hnd
    constructor
    · exact hnd'.2
    · intro k'
      rw [mapLookup_remove]
      by_cases h : k' = k
      · subst h
        simp [hnd'.1]
      · have hm := hmem k'
        rw [hq, List.mem_cons] at hm
        simp only [h, false_or] at hm
        simp [h, hm]

end LRU

/-!
## Theorems for the claims
-/

/-- **C10**: the `LRUCache` invariant — each key occurs at most once in the
eviction queue, and the queue holds exactly the keys present in the cache
map — is established by `new`/`clear` and preserved by `insert`, `remove`,
`get_mut` and `pop_lowest_priority` (`get` returns a value without
touching the structure, so it preserves every property of the state).
Consequently a key dequeued inside `pop_lowest_priority` is always found
in the map: from an invariant state with a nonempty queue the function
returns the queue head together with its cached value in a single step,
so the recursive retry branch for a missing key is never taken from any
state reachable from an empty cache. -/
theorem lru_cache_invariant (T : Type) :
    LRU.Inv (LRU.LRUCache.new T) ∧
    (∀ c : LRU.LRUCache T, LRU.Inv c.clear) ∧
    (∀ (c : LRU.LRUCache T) (k : Nat) (v : T), LRU.Inv c →
      LRU.Inv (c.insert k v).1) ∧
    (∀ (c : LRU.LRUCache T) (k : Nat), LRU.Inv c → LRU.Inv (c.remove k).1) ∧
    (∀ (c : LRU.LRUCache T) (k : Nat) (f : T → T), LRU.Inv c →
      LRU.Inv (c.get_mut k f).1) ∧
    (∀ c : LRU.LRUCache T, LRU.Inv c → LRU.Inv c.pop_lowest_priority.2) ∧
    (∀ (c : LRU.LRUCache T) (k : Nat) (rest : List Nat), LRU.Inv c →
      c.lru_queue = k :: rest →
      ∃ v, LRU.mapLookup c.cache k = some v ∧
        c.pop_lowest_priority =
          (some (k, v), ⟨(LRU.mapRemove c.cache k).1, rest⟩)) := by
  refine ⟨LRU.inv_new T, LRU.inv_clear, ?_, ?_, ?_, ?_, ?_⟩
  · intro c k v h
    exact LRU.inv_insert h k v
  · intro c k h
    exact LRU.inv_remove h k
  · intro c k f h
    exact LRU.inv_get_mut h k f
  · intro c h
    exact LRU.inv_pop h
  · intro c k rest h hq
    exact LRU.pop_step h hq

/-- Witness for `lru_cache_invariant` at a concrete cache. -/
theorem lru_cache_invariant_witness :
    ∃ v, LRU.mapLookup [(5, 7)] 5 = some v ∧
      (LRU.LRUCache.mk [(5, 7)] [5] : LRU.LRUCache Nat).pop_lowest_priority =
        (some (5, v), ⟨(LRU.mapRemove [(5, 7)] 5).1, []⟩) := by
  refine (lru_cache_invariant Nat).2.2.2.2.2.2 ⟨[(5, 7)], [5]⟩ 5 [] ⟨?_, ?_⟩ rfl
  · decide
  · intro k
    by_cases h : k = 5
    · subst h
      simp [LRU.mapLookup, List.lookup_cons]
    · have hb : (k == 5) = false := beq_eq_false_iff_ne.mpr h
      simp [LRU.mapLookup, List.lookup_cons, hb, h]

/-- **C9**: `LRUCache::insert` enqueues a key only the first time it is
seen — inserting a fresh key appends it to the back of the eviction queue
and returns `none`, while re-inserting a present key replaces its value,
returns the old value and leaves the queue unchanged — and
`pop_lowest_priority` removes and returns the entry at the front of the
queue, which (queue order being first-insertion order of the still-present
keys, by the previous facts and the queue/map invariant) is the key least
recently first-inserted among those still present; it returns `none` on an
empty cache. -/
theorem lru_insert_enqueues_once_pop_fifo (T : Type) :
    (∀ (c : LRU.LRUCache T) (k : Nat) (v : T),
      LRU.mapLookup c.cache k = none →
      c.insert k v = (⟨(LRU.mapInsert c.cache k v).1, c.lru_queue ++ [k]⟩, none)) ∧
    (∀ (c : LRU.LRUCache T) (k : Nat) (v old : T),
      LRU.mapLookup c.cache k = some old →
      c.insert k v = (⟨(LRU.mapInsert c.cache k v).1, c.lru_queue⟩, some old)) ∧
    (∀ c : LRU.LRUCache T, LRU.Inv c → c.cache = [] →
      c.pop_lowest_priority = (none, c)) ∧
    (∀ (c : LRU.LRUCache T) (k : Nat) (rest : List Nat), LRU.Inv c →
      c.lru_queue = k :: rest →
      ∃ v, LRU.mapLookup c.cache k = some v ∧
        c.pop_lowest_priority.1 = some (k, v) ∧
        c.pop_lowest_priority.2.lru_queue = rest ∧
        LRU.mapLookup c.pop_lowest_priority.2.cache k = none ∧
        ∀ k', k' ≠ k →
          LRU.mapLookup c.pop_lowest_priority.2.cache k' =
            LRU.mapLookup c.cache k') := by
  refine ⟨?_, ?_, ?_, ?_⟩
  · intro c k v h
    simp [LRU.LRUCache.insert, LRU.mapInsert, h]
  · intro c k v old h
    simp [LRU.LRUCache.insert, LRU.mapInsert, h]
  · intro c hinv hcache
    have hq : c.lru_queue = [] := by
      rw [List.eq_nil_iff_forall_not_mem]
      intro k hk
      have := (hinv.2 k).mp hk
      rw [hcache] at this
      simp [LRU.mapLookup] at this
    obtain ⟨cache, q⟩ := c
    simp only at hq hcache
    subst hq
    simp [LRU.LRUCache.pop_lowest_priority]
  · intro c k rest hinv hq
    obtain ⟨v, hv, hstep⟩ := LRU.pop_step hinv hq
    refine ⟨v, hv, by rw [hstep], by rw [hstep], ?_, ?_⟩
    · rw [hstep]
      simp only
      rw [LRU.mapLookup_remove]
      simp
    · intro k' hk'
      rw [hstep]
      simp only
      rw [LRU.mapLookup_remove]
      simp [hk']

/-- Witness for `lru_insert_enqueues_once_pop_fifo` at concrete inputs. -/
theorem lru_insert_enqueues_once_pop_fifo_witness :
    (LRU.LRUCache.mk [] [] : LRU.LRUCache Nat).insert 3 9 =
      (⟨[(3, 9)], [3]⟩, none) ∧
    (LRU.LRUCache.mk [(3, 9)] [3] : LRU.LRUCache Nat).insert 3 11 =
      (⟨[(3, 11)], [3]⟩, some 9) := by
  constructor
  · have h := (lru_insert_enqueues_once_pop_fifo Nat).1 ⟨[], []⟩ 3 9 rfl
    simpa [LRU.mapInsert] using h
  · have h := (lru_insert_enqueues_once_pop_fifo Nat).2.1 ⟨[(3, 9)], [3]⟩ 3 11 9 rfl
    simpa [LRU.mapInsert] using h

namespace Redb

theorem popLast_leaf_spec (ts : TS) (pn : Nat) (entries : List Entry)
    (hne : entries ≠ []) (halloc : ts.mem.allocFail = false) :
    ∃ e, entries[entries.length - 1]? = some e ∧
    ∃ dres ts1,
      popLastLeafStep ts pn entries true =
        ((if ts.mem.isUncommitted pn then { ts1 with mem := ts1.mem.free pn }
          else { ts1 with freedPages := ts1.freedPages ++ [pn] }),
         .ok (some (dres, e))) ∧
      (entries.length = 1 → dres = .DeletedLeaf ∧ ts1 = ts) ∧
      (entries.length ≠ 1 →
        (newRequiredBytes ts.mem entries (entries.length - 1) <
            ts.mem.pageSize / 3 →
          dres = .PartialLeaf (.leaf entries) (entries.length - 1) ∧ ts1 = ts) ∧
        (¬ newRequiredBytes ts.mem entries (entries.length - 1) <
            ts.mem.pageSize / 3 →
          dres = .Subtree ts.mem.nextFree DEFERRED ∧
          ts1.mem.pages.lookup ts.mem.nextFree =
            some (.leaf (entries.take (entries.length - 1))) ∧
          ts1.freedPages = ts.freedPages ∧ ts1.root = ts.root)) := by
  have hlen : 0 < entries.length := List.length_pos.mpr hne
  have hidx : entries.length - 1 < entries.length := by omega
  refine ⟨entries[entries.length - 1], List.getElem?_eq_getElem hidx, ?_⟩
  have h0 : (entries.length == 0) = false := by
    simp [Nat.ne_of_gt hlen]
  by_cases h1 : entries.length = 1
  · refine ⟨.DeletedLeaf, ts, ?_, fun _ => ⟨rfl, rfl⟩, fun hc => absurd h1 hc⟩
    have h1b : (entries.length == 1) = true := by simp [h1]
    simp only [popLastLeafStep, h0, Bool.false_eq_true, if_false,
      List.getElem?_eq_getElem hidx, h1b, Bool.and_true]
    simp
  · by_cases h2 : newRequiredBytes ts.mem entries (entries.length - 1) <
        ts.mem.pageSize / 3
    · refine ⟨.PartialLeaf (.leaf entries) (entries.length - 1), ts, ?_,
        fun hc => absurd hc h1, fun _ => ⟨fun _ => ⟨rfl, rfl⟩, fun hc => absurd h2 hc⟩⟩
      have h1b : (entries.length == 1) = false := by simp [h1]
      simp only [popLastLeafStep, h0, Bool.false_eq_true, if_false,
        List.getElem?_eq_getElem hidx, h1b, if_pos h2, Bool.and_true]
    · refine ⟨.Subtree ts.mem.nextFree DEFERRED,
        { ts with mem :=
          { ts.mem with
            pages := setEntry ts.mem.pages ts.mem.nextFree
              (.leaf (entries.take (entries.length - 1)))
            nextFree := ts.mem.nextFree + 1
            isUncommitted := fun q => q == ts.mem.nextFree || ts.mem.isUncommitted q } },
        ?_, fun hc => absurd hc h1,
        fun _ => ⟨fun hc => absurd hc h2, fun _ => ⟨rfl, ?_, rfl, rfl⟩⟩⟩
      · have h1b : (entries.length == 1) = false := by simp [h1]
        simp only [popLastLeafStep, h0, Bool.false_eq_true, if_false,
          List.getElem?_eq_getElem hidx, h1b, if_neg h2, Bool.and_true,
          Mem.allocPage, halloc]
      · simp [setEntry, List.lookup_cons]

theorem popFirst_leaf_spec (ts : TS) (pn : Nat) (entries : List Entry)
    (hne : entries ≠ []) (halloc : ts.mem.allocFail = false) :
    ∃ e, entries[0]? = some e ∧
    ∃ dres ts1,
      popFirstLeafStep ts pn entries true =
        ((if ts.mem.isUncommitted pn then { ts1 with mem := ts1.mem.free pn }
          else { ts1 with freedPages := ts1.freedPages ++ [pn] }),
         .ok (some (dres, e))) ∧
      (entries.length = 1 → dres = .DeletedLeaf ∧ ts1 = ts) ∧
      (entries.length ≠ 1 →
        (newRequiredBytes ts.mem entries 0 < ts.mem.pageSize / 3 →
          dres = .PartialLeaf (.leaf entries) 0 ∧ ts1 = ts) ∧
        (¬ newRequiredBytes ts.mem entries 0 < ts.mem.pageSize / 3 →
          dres = .Subtree ts.mem.nextFree DEFERRED ∧
          ts1.mem.pages.lookup ts.mem.nextFree =
            some (.leaf (entries.drop 1)) ∧
          ts1.freedPages = ts.freedPages ∧ ts1.root = ts.root)) := by
  have hlen : 0 < entries.length := List.length_pos.mpr hne
  refine ⟨entries[0], List.getElem?_eq_getElem hlen, ?_⟩
  have h0 : (entries.length == 0) = false := by
    simp [Nat.ne_of_gt hlen]
  by_cases h1 : entries.length = 1
  · refine ⟨.DeletedLeaf, ts, ?_, fun _ => ⟨rfl, rfl⟩, fun hc => absurd h1 hc⟩
    have h1b : (entries.length == 1) = true := by simp [h1]
    simp only [popFirstLeafStep, h0, Bool.false_eq_true, if_false,
      List.getElem?_eq_getElem hlen, h1b, Bool.and_true]
    simp
  · by_cases h2 : newRequiredBytes ts.mem entries 0 < ts.mem.pageSize / 3
    · refine ⟨.PartialLeaf (.leaf entries) 0, ts, ?_,
        fun hc => absurd hc h1, fun _ => ⟨fun _ => ⟨rfl, rfl⟩, fun hc => absurd h2 hc⟩⟩
      have h1b : (entries.length == 1) = false := by simp [h1]
      simp only [popFirstLeafStep, h0, Bool.false_eq_true, if_false,
        List.getElem?_eq_getElem hlen, h1b, if_pos h2, Bool.and_true]
    · refine ⟨.Subtree ts.mem.nextFree DEFERRED,
        { ts with mem :=
          { ts.mem with
            pages := setEntry ts.mem.pages ts.mem.nextFree
              (.leaf (entries.drop 1))
            nextFree := ts.mem.nextFree + 1
            isUncommitted := fun q => q == ts.mem.nextFree || ts.mem.isUncommitted q } },
        ?_, fun hc => absurd hc h1,
        fun _ => ⟨fun hc => absurd hc h2, fun _ => ⟨rfl, ?_, rfl, rfl⟩⟩⟩
      · have h1b : (entries.length == 1) = false := by simp [h1]
        simp only [popFirstLeafStep, h0, Bool.false_eq_true, if_false,
          List.getElem?_eq_getElem hlen, h1b, if_neg h2, Bool.and_true,
          Mem.allocPage, halloc]
      · simp [setEntry, List.lookup_cons]

end Redb

open Redb in
/-- **C2**: at a leaf with at least one entry, `pop_last_from_node` and
`pop_first_from_node` classify the deletion of the last (resp. first)
entry as follows: exactly one entry yields `DeletedLeaf`; otherwise, if
the bytes required to rebuild the leaf without the removed entry are below
one third of the page size, the result is `PartialLeaf` carrying the raw
page and the removed index; otherwise a new leaf is built with the removed
entry excluded and the result is `Subtree(new_page, DEFERRED)`. In every
case the old leaf page is freed immediately when it was uncommitted and
otherwise pushed onto the deferred freed-pages list, and the removed pair
is returned as an owned copy. (Stated for `modify_uncommitted = true`, the
value `BtreeMut::new` always sets; the allocation-failure path is the
subject of the error-handling claim.) -/
theorem pop_leaf_step_classification :
    (∀ (ts : TS) (pn : Nat) (entries : List Entry), entries ≠ [] →
      ts.mem.allocFail = false →
      ∃ e, entries[entries.length - 1]? = some e ∧
      ∃ dres ts1,
        popLastLeafStep ts pn entries true =
          ((if ts.mem.isUncommitted pn then { ts1 with mem := ts1.mem.free pn }
            else { ts1 with freedPages := ts1.freedPages ++ [pn] }),
           .ok (some (dres, e))) ∧
        (entries.length = 1 → dres = .DeletedLeaf ∧ ts1 = ts) ∧
        (entries.length ≠ 1 →
          (newRequiredBytes ts.mem entries (entries.length - 1) <
              ts.mem.pageSize / 3 →
            dres = .PartialLeaf (.leaf entries) (entries.length - 1) ∧
              ts1 = ts) ∧
          (¬ newRequiredBytes ts.mem entries (entries.length - 1) <
              ts.mem.pageSize / 3 →
            dres = .Subtree ts.mem.nextFree DEFERRED ∧
            ts1.mem.pages.lookup ts.mem.nextFree =
              some (.leaf (entries.take (entries.length - 1))) ∧
            ts1.freedPages = ts.freedPages ∧ ts1.root = ts.root))) ∧
    (∀ (ts : TS) (pn : Nat) (entries : List Entry), entries ≠ [] →
      ts.mem.allocFail = false →
      ∃ e, entries[0]? = some e ∧
      ∃ dres ts1,
        popFirstLeafStep ts pn entries true =
          ((if ts.mem.isUncommitted pn then { ts1 with mem := ts1.mem.free pn }
            else { ts1 with freedPages := ts1.freedPages ++ [pn] }),
           .ok (some (dres, e))) ∧
        (entries.length = 1 → dres = .DeletedLeaf ∧ ts1 = ts) ∧
        (entries.length ≠ 1 →
          (newRequiredBytes ts.mem entries 0 < ts.mem.pageSize / 3 →
            dres = .PartialLeaf (.leaf entries) 0 ∧ ts1 = ts) ∧
          (¬ newRequiredBytes ts.mem entries 0 < ts.mem.pageSize / 3 →
            dres = .Subtree ts.mem.nextFree DEFERRED ∧
            ts1.mem.pages.lookup ts.mem.nextFree =
              some (.leaf (entries.drop 1)) ∧
            ts1.freedPages = ts.freedPages ∧ ts1.root = ts.root))) :=
  ⟨Redb.popLast_leaf_spec, Redb.popFirst_leaf_spec⟩

/-- Witness for `pop_leaf_step_classification` on the concrete leaf
`popEntries` in `tsPop` (3 entries, rebuild threshold not met, so the
Subtree arm fires and page 2 is freshly allocated). -/
theorem pop_leaf_step_classification_witness :
    (Redb.popLastLeafStep Redb.tsPop 1 Redb.popEntries true).2 =
      .ok (some (.Subtree 2 Redb.DEFERRED, ⟨[5], [50]⟩)) ∧
    (Redb.popFirstLeafStep Redb.tsPop 1 Redb.popEntries true).2 =
      .ok (some (.Subtree 2 Redb.DEFERRED, ⟨[1], [10]⟩)) := by
  constructor
  · obtain ⟨e, he, dres, ts1, heq, -, hcase⟩ :=
      pop_leaf_step_classification.1 Redb.tsPop 1 Redb.popEntries
        (by decide) rfl
    have he2 : Redb.popEntries[Redb.popEntries.length - 1]? =
        some (⟨[5], [50]⟩ : Redb.Entry) := by decide
    have hev : e = ⟨[5], [50]⟩ := by
      have := he2.symm.trans he
      exact (Option.some.inj this).symm
    obtain ⟨hdres, -⟩ := (hcase (by decide)).2 (by decide)
    rw [heq, hev, hdres]
    rfl
  · obtain ⟨e, he, dres, ts1, heq, -, hcase⟩ :=
      pop_leaf_step_classification.2 Redb.tsPop 1 Redb.popEntries
        (by decide) rfl
    have he2 : Redb.popEntries[0]? = some (⟨[1], [10]⟩ : Redb.Entry) := by
      decide
    have hev : e = ⟨[1], [10]⟩ := by
      have := he2.symm.trans he
      exact (Option.some.inj this).symm
    obtain ⟨hdres, -⟩ := (hcase (by decide)).2 (by decide)
    rw [heq, hev, hdres]
    rfl

open Redb in
/-- **C3**: at the root of a successful pop, the new header length is the
old length minus one; `Subtree` and `PartialBranch` results install their
page and checksum as the new root; `DeletedLeaf` empties the tree;
`DeletedBranch` promotes the remaining child; a `PartialLeaf` result is
finished by building a leaf with the deleted pair excluded (installed with
a `DEFERRED` checksum, subject to the length assertion). An empty tree
(no root header) returns `none` with the state, and so the header,
untouched. -/
theorem pop_root_header_update :
    (∀ (fuel : Nat) (ts : TS) (mu : Bool), ts.root = none →
      popLastHelper fuel ts mu = (ts, .ok none) ∧
      popFirstHelper fuel ts mu = (ts, .ok none)) ∧
    (∀ (fuel : Nat) (ts : TS) (mu : Bool) (h : BtreeHeader) (ts' : TS)
        (dres : DeletionResult) (entry : Entry), ts.root = some h →
      popLastFromNode fuel ts h.root h.checksum mu =
        (ts', .ok (some (dres, entry))) →
      popLastHelper fuel ts mu = popRootFinish ts' h dres entry) ∧
    (∀ (fuel : Nat) (ts : TS) (mu : Bool) (h : BtreeHeader) (ts' : TS)
        (dres : DeletionResult) (entry : Entry), ts.root = some h →
      popFirstFromNode fuel ts h.root h.checksum mu =
        (ts', .ok (some (dres, entry))) →
      popFirstHelper fuel ts mu = popRootFinish ts' h dres entry) ∧
    (∀ (ts' : TS) (h : BtreeHeader) (entry : Entry) (p ck : Nat),
      popRootFinish ts' h (.Subtree p ck) entry =
        ({ ts' with root := some ⟨p, ck, h.length - 1⟩ }, .ok (some entry))) ∧
    (∀ (ts' : TS) (h : BtreeHeader) (entry : Entry),
      popRootFinish ts' h .DeletedLeaf entry =
        ({ ts' with root := none }, .ok (some entry))) ∧
    (∀ (ts' : TS) (h : BtreeHeader) (entry : Entry) (p ck : Nat),
      popRootFinish ts' h (.PartialBranch p ck) entry =
        ({ ts' with root := some ⟨p, ck, h.length - 1⟩ }, .ok (some entry))) ∧
    (∀ (ts' : TS) (h : BtreeHeader) (entry : Entry) (p ck : Nat),
      popRootFinish ts' h (.DeletedBranch p ck) entry =
        ({ ts' with root := some ⟨p, ck, h.length - 1⟩ }, .ok (some entry))) ∧
    (∀ (ts' : TS) (h : BtreeHeader) (entry : Entry) (es : List Entry)
        (d : Nat) (m' : Mem),
      ts'.mem.allocPage (.leaf (es.eraseIdx d)) = .ok (ts'.mem.nextFree, m') →
      h.length - 1 = es.length - 1 →
      popRootFinish ts' h (.PartialLeaf (.leaf es) d) entry =
        ({ ts' with mem := m', root := some ⟨ts'.mem.nextFree, DEFERRED, h.length - 1⟩ },
         .ok (some entry))) := by
  refine ⟨?_, ?_, ?_, fun _ _ _ _ _ => rfl, fun _ _ _ => rfl,
    fun _ _ _ _ _ => rfl, fun _ _ _ _ _ => rfl, ?_⟩
  · intro fuel ts mu hroot
    constructor
    · simp only [popLastHelper, hroot]
    · simp only [popFirstHelper, hroot]
  · intro fuel ts mu h ts' dres entry hroot hfn
    simp only [popLastHelper, hroot]
    rw [hfn]
  · intro fuel ts mu h ts' dres entry hroot hfn
    simp only [popFirstHelper, hroot]
    rw [hfn]
  · intro ts' h entry es d m' halloc hlen
    simp only [popRootFinish]
    rw [halloc]
    have hb : (h.length - 1 == es.length - 1) = true := by simp [hlen]
    simp [hb]

/-- Witness for `pop_root_header_update`: the empty-tree conjunct applied
to the concrete empty state. -/
theorem pop_root_header_update_witness :
    Redb.popLastHelper 5 Redb.tsBare true = (Redb.tsBare, .ok none) ∧
    Redb.popFirstHelper 5 Redb.tsBare true = (Redb.tsBare, .ok none) :=
  pop_root_header_update.1 5 Redb.tsBare true rfl

/-- **C1** (the failing part, exhibited concretely): at a branch with 3
children whose first child reported `DeletedLeaf`, `pop_first_from_node`
rebuilds the branch keeping children 1 and 2, but its key loop pushes
`key(i - 2)` for `i in 2..count_children`, keeping keys `0..count-3`:
it omits the LAST separator key instead of the separator adjacent to the
deleted first child. Here the rebuilt branch keeps `[10]` (the separator
that belonged to the deleted child) where the specified rebuild — the one
`pop_last_from_node` performs symmetrically on its side — keeps the tail
`[[20]]`. The kept separator `[10]` sits left of every key of the
remaining children, violating the branch ordering invariant. -/
theorem popFirst_branch_rebuild_wrong_separator :
    ∃ ts2 : Redb.TS,
      Redb.popFirstBranchStep Redb.tsBare 9 [(3, 0), (4, 0), (5, 0)]
          [[10], [20]] 55 true .DeletedLeaf =
        (ts2, .ok (.Subtree 10 Redb.DEFERRED)) ∧
      ts2.mem.pages.lookup 10 = some (.branch [(4, 0), (5, 0)] [[10]]) ∧
      [[10]] ≠ ([[10], [20]] : List Redb.KeyBytes).tail := by
  refine ⟨_, rfl, rfl, by decide⟩

namespace Redb

theorem freeOrPush_root (ts : TS) (pn : Nat) (mu : Bool) :
    (freeOrPush ts pn mu).root = ts.root := by
  unfold freeOrPush Mem.freeIfUncommitted
  by_cases hmu : mu <;> by_cases h : ts.mem.isUncommitted pn <;> simp [hmu, h]

theorem popLastLeafStep_root (ts : TS) (pn : Nat) (entries : List Entry)
    (mu : Bool) : (popLastLeafStep ts pn entries mu).1.root = ts.root := by
  simp only [popLastLeafStep]
  by_cases h0 : (entries.length == 0) = true
  · simp [h0]
  cases hget : entries[entries.length - 1]? with
  | none => simp [h0, hget]
  | some entry =>
    by_cases h1 : (entries.length == 1) = true
    · by_cases hu : (ts.mem.isUncommitted pn && mu) = true <;>
        simp [h0, hget, h1, hu]
    · by_cases h2 : newRequiredBytes ts.mem entries (entries.length - 1) <
          ts.mem.pageSize / 3
      · by_cases hu : (ts.mem.isUncommitted pn && mu) = true <;>
          simp [h0, hget, h1, h2, hu]
      · cases halloc : ts.mem.allocPage
            (.leaf (entries.take (entries.length - 1))) with
        | error e => simp [h0, hget, h1, h2, halloc]
        | ok pr =>
          obtain ⟨np, m'⟩ := pr
          by_cases hu : (ts.mem.isUncommitted pn && mu) = true <;>
            simp [h0, hget, h1, h2, halloc, hu]

end Redb

namespace Redb

theorem popFirstLeafStep_root (ts : TS) (pn : Nat) (entries : List Entry)
    (mu : Bool) : (popFirstLeafStep ts pn entries mu).1.root = ts.root := by
  simp only [popFirstLeafStep]
  by_cases h0 : (entries.length == 0) = true
  · simp [h0]
  cases hget : entries[0]? with
  | none => simp [h0, hget]
  | some entry =>
    by_cases h1 : (entries.length == 1) = true
    · by_cases hu : (ts.mem.isUncommitted pn && mu) = true <;>
        simp [h0, hget, h1, hu]
    · by_cases h2 : newRequiredBytes ts.mem entries 0 < ts.mem.pageSize / 3
      · by_cases hu : (ts.mem.isUncommitted pn && mu) = true <;>
          simp [h0, hget, h1, h2, hu]
      · cases halloc : ts.mem.allocPage (.leaf (entries.drop 1)) with
        | error e => simp [h0, hget, h1, h2, halloc]
        | ok pr =>
          obtain ⟨np, m'⟩ := pr
          by_cases hu : (ts.mem.isUncommitted pn && mu) = true <;>
            simp [h0, hget, h1, h2, halloc, hu]

theorem popLastBranchStep_root (ts : TS) (pn : Nat)
    (children : List (Nat × Nat)) (keys : List KeyBytes) (checksum : Nat)
    (mu : Bool) (dres : DeletionResult) :
    (popLastBranchStep ts pn children keys checksum mu dres).1.root =
      ts.root := by
  cases dres with
  | Subtree nc nck =>
    simp only [popLastBranchStep]
    by_cases hu : (ts.mem.isUncommitted pn && mu) = true
    · cases hget : ts.mem.getPage pn with
      | error e => simp [hu, hget]
      | ok node => cases node <;> simp [hu, hget]
    · cases halloc : ts.mem.allocPage
          (.branch (children.set (children.length - 1) (nc, nck)) keys) with
      | error e => simp [hu, halloc]
      | ok pr =>
        obtain ⟨np, m'⟩ := pr
        simp [hu, halloc, freeOrPush_root]
  | DeletedLeaf =>
    simp only [popLastBranchStep]
    by_cases h2 : (children.length == 2) = true
    · cases hget : children[0]? with
      | none => simp [h2, hget]
      | some c0 =>
        obtain ⟨c, ck⟩ := c0
        simp [h2, hget, freeOrPush_root]
    · cases halloc : ts.mem.allocPage
          (.branch children.dropLast keys.dropLast) with
      | error e => simp [h2, halloc]
      | ok pr =>
        obtain ⟨np, m'⟩ := pr
        simp [h2, halloc, freeOrPush_root]
  | PartialLeaf pg d => rfl
  | PartialBranch p c => rfl
  | DeletedBranch p c => rfl

theorem popFirstBranchStep_root (ts : TS) (pn : Nat)
    (children : List (Nat × Nat)) (keys : List KeyBytes) (checksum : Nat)
    (mu : Bool) (dres : DeletionResult) :
    (popFirstBranchStep ts pn children keys checksum mu dres).1.root =
      ts.root := by
  cases dres with
  | Subtree nc nck =>
    simp only [popFirstBranchStep]
    by_cases hu : (ts.mem.isUncommitted pn && mu) = true
    · cases hget : ts.mem.getPage pn with
      | error e => simp [hu, hget]
      | ok node => cases node <;> simp [hu, hget]
    · cases halloc : ts.mem.allocPage
          (.branch (children.set 0 (nc, nck)) keys) with
      | error e => simp [hu, halloc]
      | ok pr =>
        obtain ⟨np, m'⟩ := pr
        simp [hu, halloc, freeOrPush_root]
  | DeletedLeaf =>
    simp only [popFirstBranchStep]
    by_cases h2 : (children.length == 2) = true
    · cases hget : children[1]? with
      | none => simp [h2, hget]
      | some c0 =>
        obtain ⟨c, ck⟩ := c0
        simp [h2, hget, freeOrPush_root]
    · cases halloc : ts.mem.allocPage
          (.branch (children.drop 1) keys.dropLast) with
      | error e => simp [h2, halloc]
      | ok pr =>
        obtain ⟨np, m'⟩ := pr
        simp [h2, halloc, freeOrPush_root]
  | PartialLeaf pg d => rfl
  | PartialBranch p c => rfl
  | DeletedBranch p c => rfl

theorem popLastFromNode_root (fuel : Nat) :
    ∀ (ts : TS) (pn ck : Nat) (mu : Bool),
    (popLastFromNode fuel ts pn ck mu).1.root = ts.root := by
  induction fuel with
  | zero => intro ts pn ck mu; rfl
  | succ fuel ih =>
    intro ts pn ck mu
    simp only [popLastFromNode]
    split
    · rfl
    · exact popLastLeafStep_root ts pn _ mu
    · split
      · rfl
      · rename_i children keys hget cpr cp cck hidx
        split
        · rename_i hsplit ts' e heq
          have hr := ih ts cp cck mu
          rw [heq] at hr
          exact hr
        · rename_i hsplit ts' heq
          have hr := ih ts cp cck mu
          rw [heq] at hr
          exact hr
        · rename_i hsplit ts' dres entry heq
          have hr := ih ts cp cck mu
          rw [heq] at hr
          have hb := popLastBranchStep_root ts' pn children keys ck mu dres
          split
          · rename_i hsplit2 ts2 e2 heq2
            rw [heq2] at hb
            exact hb.trans hr
          · rename_i hsplit2 ts2 fr heq2
            rw [heq2] at hb
            exact hb.trans hr
    · rfl

theorem popFirstFromNode_root (fuel : Nat) :
    ∀ (ts : TS) (pn ck : Nat) (mu : Bool),
    (popFirstFromNode fuel ts pn ck mu).1.root = ts.root := by
  induction fuel with
  | zero => intro ts pn ck mu; rfl
  | succ fuel ih =>
    intro ts pn ck mu
    simp only [popFirstFromNode]
    split
    · rfl
    · exact popFirstLeafStep_root ts pn _ mu
    · split
      · rfl
      · rename_i children keys hget cpr cp cck hidx
        split
        · rename_i hsplit ts' e heq
          have hr := ih ts cp cck mu
          rw [heq] at hr
          exact hr
        · rename_i hsplit ts' heq
          have hr := ih ts cp cck mu
          rw [heq] at hr
          exact hr
        · rename_i hsplit ts' dres entry heq
          have hr := ih ts cp cck mu
          rw [heq] at hr
          have hb := popFirstBranchStep_root ts' pn children keys ck mu dres
          split
          · rename_i hsplit2 ts2 e2 heq2
            rw [heq2] at hb
            exact hb.trans hr
          · rename_i hsplit2 ts2 fr heq2
            rw [heq2] at hb
            exact hb.trans hr
    · rfl

end Redb

namespace Redb

theorem popRootFinish_error_root (ts' : TS) (h : BtreeHeader)
    (dres : DeletionResult) (entry : Entry) (ts2 : TS) (e : Err)
    (heq : popRootFinish ts' h dres entry = (ts2, .error e)) :
    ts2.root = ts'.root := by
  cases dres with
  | Subtree p c => exact absurd heq (by simp [popRootFinish])
  | DeletedLeaf => exact absurd heq (by simp [popRootFinish])
  | PartialBranch p c => exact absurd heq (by simp [popRootFinish])
  | DeletedBranch p c => exact absurd heq (by simp [popRootFinish])
  | PartialLeaf pg d =>
    cases pg with
    | branch cs ks =>
      simp only [popRootFinish] at heq
      injection heq with h1 h2
      rw [← h1]
    | corrupt =>
      simp only [popRootFinish] at heq
      injection heq with h1 h2
      rw [← h1]
    | leaf es =>
      simp only [popRootFinish] at heq
      cases halloc : ts'.mem.allocPage (.leaf (es.eraseIdx d)) with
      | error e2 =>
        simp only [halloc] at heq
        injection heq with h1 h2
        rw [← h1]
      | ok pr =>
        obtain ⟨np, m'⟩ := pr
        simp only [halloc] at heq
        by_cases hlen : (h.length - 1 == es.length - 1) = true
        · rw [if_pos hlen] at heq
          exact absurd heq (by simp)
        · rw [if_neg hlen] at heq
          injection heq with h1 h2
          rw [← h1]

theorem popLastHelper_error_root (fuel : Nat) (ts : TS) (mu : Bool) (ts2 : TS)
    (e : Err) (heq : popLastHelper fuel ts mu = (ts2, .error e)) :
    ts2.root = ts.root := by
  cases hroot : ts.root with
  | none =>
    have hstep : popLastHelper fuel ts mu = (ts, .ok none) := by
      simp only [popLastHelper, hroot]
    rw [hstep] at heq
    exact absurd heq (by simp)
  | some h =>
    have hfr := popLastFromNode_root fuel ts h.root h.checksum mu
    cases hrec : popLastFromNode fuel ts h.root h.checksum mu with
    | mk ts' res =>
      rw [hrec] at hfr
      cases res with
      | error e2 =>
        have hstep : popLastHelper fuel ts mu = (ts', .error e2) := by
          simp only [popLastHelper, hroot]
          rw [hrec]
        rw [hstep] at heq
        injection heq with h1 h2
        rw [← h1]
        exact hfr.trans hroot
      | ok opt =>
        cases opt with
        | none =>
          have hstep : popLastHelper fuel ts mu = (ts', .ok none) := by
            simp only [popLastHelper, hroot]
            rw [hrec]
          rw [hstep] at heq
          exact absurd heq (by simp)
        | some pr =>
          obtain ⟨dres, entry⟩ := pr
          have hstep : popLastHelper fuel ts mu =
              popRootFinish ts' h dres entry := by
            simp only [popLastHelper, hroot]
            rw [hrec]
          rw [hstep] at heq
          have := popRootFinish_error_root ts' h dres entry ts2 e heq
          rw [this]
          exact hfr.trans hroot

theorem popFirstHelper_error_root (fuel : Nat) (ts : TS) (mu : Bool) (ts2 : TS)
    (e : Err) (heq : popFirstHelper fuel ts mu = (ts2, .error e)) :
    ts2.root = ts.root := by
  cases hroot : ts.root with
  | none =>
    have hstep : popFirstHelper fuel ts mu = (ts, .ok none) := by
      simp only [popFirstHelper, hroot]
    rw [hstep] at heq
    exact absurd heq (by simp)
  | some h =>
    have hfr := popFirstFromNode_root fuel ts h.root h.checksum mu
    cases hrec : popFirstFromNode fuel ts h.root h.checksum mu with
    | mk ts' res =>
      rw [hrec] at hfr
      cases res with
      | error e2 =>
        have hstep : popFirstHelper fuel ts mu = (ts', .error e2) := by
          simp only [popFirstHelper, hroot]
          rw [hrec]
        rw [hstep] at heq
        injection heq with h1 h2
        rw [← h1]
        exact hfr.trans hroot
      | ok opt =>
        cases opt with
        | none =>
          have hstep : popFirstHelper fuel ts mu = (ts', .ok none) := by
            simp only [popFirstHelper, hroot]
            rw [hrec]
          rw [hstep] at heq
          exact absurd heq (by simp)
        | some pr =>
          obtain ⟨dres, entry⟩ := pr
          have hstep : popFirstHelper fuel ts mu =
              popRootFinish ts' h dres entry := by
            simp only [popFirstHelper, hroot]
            rw [hrec]
          rw [hstep] at heq
          have := popRootFinish_error_root ts' h dres entry ts2 e heq
          rw [this]
          exact hfr.trans hroot

theorem relocateChildren_root
    (go : TS → Nat → TS × Except Err (Option (Nat × Nat)))
    (hgo : ∀ s c, (go s c).1.root = s.root) :
    ∀ (l : List (Nat × Nat)) (ts : TS),
    (relocateChildren go ts l).1.root = ts.root := by
  intro l
  induction l with
  | nil => intro ts; rfl
  | cons c rest ih =>
    intro ts
    obtain ⟨cp, cck⟩ := c
    simp only [relocateChildren]
    have hg := hgo ts cp
    split
    · rename_i ts' e heq
      rw [heq] at hg
      exact hg
    · rename_i ts' heq
      rw [heq] at hg
      have ht := ih ts'
      split
      · rename_i ts3 e3 heq3
        rw [heq3] at ht
        exact ht.trans hg
      · rename_i ts3 tl heq3
        rw [heq3] at ht
        exact ht.trans hg
    · rename_i ts' nc nck heq
      rw [heq] at hg
      have ht := ih ts'
      split
      · rename_i ts3 e3 heq3
        rw [heq3] at ht
        exact ht.trans hg
      · rename_i ts3 tl heq3
        rw [heq3] at ht
        exact ht.trans hg

theorem relocateHelper_root (fuel : Nat) :
    ∀ (ts : TS) (pn : Nat) (rmap : List (Nat × Nat)),
    (relocateHelper fuel ts pn rmap).1.root = ts.root := by
  induction fuel with
  | zero => intro ts pn rmap; rfl
  | succ fuel ih =>
    intro ts pn rmap
    simp only [relocateHelper]
    split
    · rfl
    · rename_i node hget
      split
      · rfl
      · rename_i opt newPn hlook
        split
        · rfl
        · split
          · exact freeOrPush_root _ pn true
          · rename_i children keys
            have hcr := relocateChildren_root
              (fun s c => relocateHelper fuel s c rmap)
              (fun s c => ih s c rmap) children
              { ts with mem := ts.mem.setPage newPn (.branch children keys) }
            split
            · rename_i ts2 e2 heq2
              rw [heq2] at hcr
              exact hcr
            · rename_i ts2 nc heq2
              rw [heq2] at hcr
              exact (freeOrPush_root _ pn true).trans hcr
          · rfl

theorem relocate_error_root (fuel : Nat) (ts : TS) (rmap : List (Nat × Nat))
    (ts2 : TS) (e : Err) (heq : relocate fuel ts rmap = (ts2, .error e)) :
    ts2.root = ts.root := by
  cases hroot : ts.root with
  | none =>
    have hstep : relocate fuel ts rmap = (ts, .ok false) := by
      simp only [relocate, hroot]
    rw [hstep] at heq
    exact absurd heq (by simp)
  | some h =>
    have hr := relocateHelper_root fuel ts h.root rmap
    cases hrec : relocateHelper fuel ts h.root rmap with
    | mk ts' res =>
      rw [hrec] at hr
      cases res with
      | error e2 =>
        have hstep : relocate fuel ts rmap = (ts', .error e2) := by
          simp only [relocate, hroot]
          rw [hrec]
        rw [hstep] at heq
        injection heq with h1 h2
        rw [← h1]
        exact hr.trans hroot
      | ok opt =>
        cases opt with
        | none =>
          have hstep : relocate fuel ts rmap = (ts', .ok false) := by
            simp only [relocate, hroot]
            rw [hrec]
          rw [hstep] at heq
          exact absurd heq (by simp)
        | some pr =>
          obtain ⟨nr, nc⟩ := pr
          have hstep : relocate fuel ts rmap =
              ({ ts' with root := some ⟨nr, nc, h.length⟩ }, .ok true) := by
            simp only [relocate, hroot]
            rw [hrec]
          rw [hstep] at heq
          exact absurd heq (by simp)

theorem finalize_error_root (fuel : Nat) (ts : TS) (ts2 : TS) (e : Err)
    (heq : finalizeDirtyChecksums fuel ts = (ts2, .error e)) :
    ts2.root = ts.root := by
  cases hroot : ts.root with
  | none =>
    have hstep : finalizeDirtyChecksums fuel ts = (ts, .ok none) := by
      simp only [finalizeDirtyChecksums, hroot]
    rw [hstep] at heq
    exact absurd heq (by simp)
  | some h =>
    by_cases hu : ts.mem.isUncommitted h.root = true
    · cases hrec : finalizeHelper fuel ts.mem h.root with
      | mk m' res =>
        cases res with
        | error e2 =>
          have hstep : finalizeDirtyChecksums fuel ts =
              ({ ts with mem := m' }, .error e2) := by
            simp only [finalizeDirtyChecksums, hroot]
            rw [if_neg (by simp [hu]), hrec]
          rw [hstep] at heq
          injection heq with h1 h2
          rw [← h1]
          exact hroot
        | ok ck =>
          have hstep : finalizeDirtyChecksums fuel ts =
              ({ ts with mem := m', root := some ⟨h.root, ck, h.length⟩ },
               .ok (some ⟨h.root, ck, h.length⟩)) := by
            simp only [finalizeDirtyChecksums, hroot]
            rw [if_neg (by simp [hu]), hrec]
          rw [hstep] at heq
          exact absurd heq (by simp)
    · have hstep : finalizeDirtyChecksums fuel ts = (ts, .ok (some h)) := by
        simp only [finalizeDirtyChecksums, hroot]
        rw [if_pos (by simpa using hu)]
      rw [hstep] at heq
      exact absurd heq (by simp)

theorem mutateInsert_error_root (ts : TS) (k : KeyBytes) (v : ValBytes)
    (ts2 : TS) (e : Err) (heq : mutateInsert ts k v = (ts2, .error e)) :
    ts2.root = ts.root := by
  cases hroot : ts.root with
  | none =>
    simp only [mutateInsert, hroot] at heq
    cases halloc : ts.mem.allocPage (.leaf [⟨k, v⟩]) with
    | error e2 =>
      simp only [halloc] at heq
      injection heq with h1 h2
      rw [← h1]
      exact hroot
    | ok pr =>
      obtain ⟨np, m'⟩ := pr
      simp only [halloc] at heq
      exact absurd heq (by simp)
  | some h =>
    simp only [mutateInsert, hroot] at heq
    cases hget : ts.mem.getPage h.root with
    | error e2 =>
      simp only [hget] at heq
      injection heq with h1 h2
      rw [← h1]
      exact hroot
    | ok node =>
      simp only [hget] at heq
      cases node with
      | leaf es =>
        cases hins : sortedInsert k v es with
        | mk es' old =>
          simp only [hins] at heq
          cases halloc : ts.mem.allocPage (.leaf es') with
          | error e2 =>
            simp only [halloc] at heq
            injection heq with h1 h2
            rw [← h1]
            exact hroot
          | ok pr =>
            obtain ⟨np, m'⟩ := pr
            simp only [halloc] at heq
            exact absurd heq (by simp)
      | branch cs ks =>
        injection heq with h1 h2
        rw [← h1]
        exact hroot
      | corrupt =>
        injection heq with h1 h2
        rw [← h1]
        exact hroot

theorem mutateDelete_error_root (ts : TS) (k : KeyBytes)
    (ts2 : TS) (e : Err) (heq : mutateDelete ts k = (ts2, .error e)) :
    ts2.root = ts.root := by
  cases hroot : ts.root with
  | none =>
    simp only [mutateDelete, hroot] at heq
    exact absurd heq (by simp)
  | some h =>
    simp only [mutateDelete, hroot] at heq
    cases hget : ts.mem.getPage h.root with
    | error e2 =>
      simp only [hget] at heq
      injection heq with h1 h2
      rw [← h1]
      exact hroot
    | ok node =>
      simp only [hget] at heq
      cases node with
      | leaf es =>
        cases hfind : (es.map (fun e => (e.key, e.value))).lookup k with
        | none =>
          simp only [hfind] at heq
          exact absurd heq (by simp)
        | some oldV =>
          simp only [hfind] at heq
          by_cases hemp : (es.filter (fun e => e.key ≠ k)).isEmpty = true
          · rw [if_pos hemp] at heq
            exact absurd heq (by simp)
          · rw [if_neg hemp] at heq
            cases halloc : ts.mem.allocPage
                (.leaf (es.filter (fun e => e.key ≠ k))) with
            | error e2 =>
              simp only [halloc] at heq
              injection heq with h1 h2
              rw [← h1]
              exact hroot
            | ok pr =>
              obtain ⟨np, m'⟩ := pr
              simp only [halloc] at heq
              exact absurd heq (by simp)
      | branch cs ks =>
        injection heq with h1 h2
        rw [← h1]
        exact hroot
      | corrupt =>
        injection heq with h1 h2
        rw [← h1]
        exact hroot

end Redb

/-- **C8**: for every mutating tree operation — `pop_last`, `pop_first`,
`relocate`, `finalize_dirty_checksums`, and the spec-modelled single-key
`insert`/`remove` state machine — when the page store fails with an I/O
error (from `get_page`, `get_page_mut` or page allocation) at any point
during the call, the operation returns that error and the in-memory root
header held by the tree is exactly what it was before the call: no
partially applied structural change reaches the header (the embedding
also surfaces panics and fuel exhaustion as errors; the statement covers
every surfaced error uniformly). -/
theorem mutation_error_leaves_root_unchanged :
    (∀ (fuel : Nat) (ts : Redb.TS) (mu : Bool) (ts2 : Redb.TS) (e : Redb.Err),
      Redb.popLastHelper fuel ts mu = (ts2, .error e) → ts2.root = ts.root) ∧
    (∀ (fuel : Nat) (ts : Redb.TS) (mu : Bool) (ts2 : Redb.TS) (e : Redb.Err),
      Redb.popFirstHelper fuel ts mu = (ts2, .error e) → ts2.root = ts.root) ∧
    (∀ (fuel : Nat) (ts : Redb.TS) (rmap : List (Nat × Nat)) (ts2 : Redb.TS)
        (e : Redb.Err),
      Redb.relocate fuel ts rmap = (ts2, .error e) → ts2.root = ts.root) ∧
    (∀ (fuel : Nat) (ts : Redb.TS) (ts2 : Redb.TS) (e : Redb.Err),
      Redb.finalizeDirtyChecksums fuel ts = (ts2, .error e) →
        ts2.root = ts.root) ∧
    (∀ (ts : Redb.TS) (k : Redb.KeyBytes) (v : Redb.ValBytes) (ts2 : Redb.TS)
        (e : Redb.Err),
      Redb.mutateInsert ts k v = (ts2, .error e) → ts2.root = ts.root) ∧
    (∀ (ts : Redb.TS) (k : Redb.KeyBytes) (ts2 : Redb.TS) (e : Redb.Err),
      Redb.mutateDelete ts k = (ts2, .error e) → ts2.root = ts.root) :=
  ⟨Redb.popLastHelper_error_root, Redb.popFirstHelper_error_root,
   Redb.relocate_error_root, Redb.finalize_error_root,
   Redb.mutateInsert_error_root, Redb.mutateDelete_error_root⟩

/-- Witness for `mutation_error_leaves_root_unchanged`: `pop_last` on a
tree whose root page read fails with an I/O error keeps the root header. -/
theorem mutation_error_leaves_root_unchanged_witness :
    (Redb.popLastHelper 5 Redb.tsFail true).1.root = Redb.tsFail.root :=
  mutation_error_leaves_root_unchanged.1 5 Redb.tsFail true
    (Redb.popLastHelper 5 Redb.tsFail true).1 .io rfl

namespace Redb

theorem getPage_ok {m : Mem} {pn : Nat} {node : Node}
    (h : m.getPage pn = .ok node) : m.pages.lookup pn = some node := by
  unfold Mem.getPage at h
  by_cases hio : m.ioFail pn = true
  · rw [if_pos hio] at h
    exact absurd h (by simp)
  · rw [if_neg hio] at h
    cases hl : m.pages.lookup pn with
    | none =>
      simp only [hl] at h
      exact absurd h (by simp)
    | some nd =>
      simp only [hl] at h
      injection h with h
      rw [h]

theorem lookup_setEntry_self (ps : List (Nat × Node)) (pn : Nat)
    (node : Node) : (setEntry ps pn node).lookup pn = some node := by
  unfold setEntry
  rw [List.lookup_cons]
  simp

theorem lookup_setEntry_ne (ps : List (Nat × Node)) (pn : Nat) (node : Node)
    {q : Nat} (h : q ≠ pn) : (setEntry ps pn node).lookup q = ps.lookup q := by
  unfold setEntry
  rw [List.lookup_cons]
  have hb : (q == pn) = false := beq_eq_false_iff_ne.mpr h
  simp only [hb]
  exact LRU.lookup_filterKey_ne ps h

theorem finalizeChildren_spec (go : Mem → Nat → Mem × Except Err Nat)
    (hgo : ∀ mm c mm' cck, go mm c = (mm', .ok cck) →
      (∀ q, mm.isUncommitted q = false →
        mm'.pages.lookup q = mm.pages.lookup q) ∧
      mm'.isUncommitted = mm.isUncommitted ∧ mm'.freedNow = mm.freedNow ∧
      mm'.nextFree = mm.nextFree ∧ mm'.leafCk = mm.leafCk ∧
      mm'.branchCk = mm.branchCk) :
    ∀ (l : List (Nat × Nat)) (m m' : Mem) (ncs : List (Nat × Nat)),
    finalizeChildren go m l = (m', .ok ncs) →
    (∀ q, m.isUncommitted q = false → m'.pages.lookup q = m.pages.lookup q) ∧
    m'.isUncommitted = m.isUncommitted ∧ m'.freedNow = m.freedNow ∧
    m'.nextFree = m.nextFree ∧ m'.leafCk = m.leafCk ∧
    m'.branchCk = m.branchCk ∧
    ncs.length = l.length ∧
    (∀ (i c cck : Nat), l[i]? = some (c, cck) →
      (m.isUncommitted c = false → ncs[i]? = some (c, cck)) ∧
      (m.isUncommitted c = true → ∃ nck, ncs[i]? = some (c, nck))) := by
  intro l
  induction l with
  | nil =>
    intro m m' ncs h
    simp only [finalizeChildren] at h
    injection h with h1 h2
    injection h2 with h2
    subst h1
    subst h2
    refine ⟨fun q _ => rfl, rfl, rfl, rfl, rfl, rfl, rfl, ?_⟩
    intro i c cck hidx
    simp at hidx
  | cons c0pair rest ih =>
    obtain ⟨c0, ck0⟩ := c0pair
    intro m m' ncs h
    simp only [finalizeChildren] at h
    by_cases hu : m.isUncommitted c0 = true
    · rw [if_pos hu] at h
      cases hrec : go m c0 with
      | mk m1 res1 =>
        simp only [hrec] at h
        cases res1 with
        | error e => exact absurd h (by simp)
        | ok nck =>
          cases hrest : finalizeChildren go m1 rest with
          | mk m2 res2 =>
            simp only [hrest] at h
            cases res2 with
            | error e => exact absurd h (by simp)
            | ok tail =>
              injection h with h1 h2
              injection h2 with h2
              subst h1
              subst h2
              obtain ⟨hgF, hgU, hgN, hgNF, hgL, hgB⟩ := hgo m c0 m1 nck hrec
              obtain ⟨hF, hU, hN, hNF, hL, hB, hlen, hidx⟩ :=
                ih m1 m2 tail hrest
              refine ⟨?_, ?_, ?_, ?_, ?_, ?_, ?_, ?_⟩
              · intro q hq
                rw [hF q (by rw [hgU]; exact hq), hgF q hq]
              · rw [hU, hgU]
              · rw [hN, hgN]
              · rw [hNF, hgNF]
              · rw [hL, hgL]
              · rw [hB, hgB]
              · simp [hlen]
              · intro i c cck hidx2
                cases i with
                | zero =>
                  simp only [List.getElem?_cons_zero] at hidx2
                  injection hidx2 with h3
                  obtain ⟨rfl, rfl⟩ := Prod.mk.inj h3
                  constructor
                  · intro hfalse
                    rw [hu] at hfalse
                    exact absurd hfalse (by simp)
                  · intro _
                    exact ⟨nck, by simp⟩
                | succ i =>
                  simp only [List.getElem?_cons_succ] at hidx2 ⊢
                  have hrec2 := hidx i c cck hidx2
                  constructor
                  · intro hfalse
                    exact hrec2.1 (by rw [hgU]; exact hfalse)
                  · intro htrue
                    exact hrec2.2 (by rw [hgU]; exact htrue)
    · rw [if_neg hu] at h
      cases hrest : finalizeChildren go m rest with
      | mk m2 res2 =>
        simp only [hrest] at h
        cases res2 with
        | error e => exact absurd h (by simp)
        | ok tail =>
          injection h with h1 h2
          injection h2 with h2
          subst h1
          subst h2
          obtain ⟨hF, hU, hN, hNF, hL, hB, hlen, hidx⟩ := ih m m2 tail hrest
          refine ⟨hF, hU, hN, hNF, hL, hB, by simp [hlen], ?_⟩
          intro i c cck hidx2
          cases i with
          | zero =>
            simp only [List.getElem?_cons_zero] at hidx2
            injection hidx2 with h3
            obtain ⟨rfl, rfl⟩ := Prod.mk.inj h3
            constructor
            · intro _
              simp
            · intro htrue
              exact absurd htrue hu
          | succ i =>
            simp only [List.getElem?_cons_succ] at hidx2 ⊢
            exact hidx i c cck hidx2

theorem finalizeHelper_spec (fuel : Nat) :
    ∀ (m : Mem) (pn : Nat) (m' : Mem) (ck : Nat),
    finalizeHelper fuel m pn = (m', .ok ck) →
    (∀ q, m.isUncommitted q = false → m'.pages.lookup q = m.pages.lookup q) ∧
    m'.isUncommitted = m.isUncommitted ∧ m'.freedNow = m.freedNow ∧
    m'.nextFree = m.nextFree ∧ m'.leafCk = m.leafCk ∧
    m'.branchCk = m.branchCk ∧
    ((∃ es, m.pages.lookup pn = some (.leaf es) ∧ m.leafCk es = .ok ck ∧
        m' = m) ∨
     (∃ cs ks ncs,
        m.pages.lookup pn = some (.branch cs ks) ∧
        m'.pages.lookup pn = some (.branch ncs ks) ∧
        m.branchCk ncs ks = .ok ck ∧
        ncs.length = cs.length ∧
        ∀ (i c cck : Nat), cs[i]? = some (c, cck) →
          (m.isUncommitted c = false → ncs[i]? = some (c, cck)) ∧
          (m.isUncommitted c = true → ∃ nck, ncs[i]? = some (c, nck)))) := by
  induction fuel with
  | zero =>
    intro m pn m' ck h
    exact absurd h (by simp [finalizeHelper])
  | succ fuel ih =>
    intro m pn m' ck h
    simp only [finalizeHelper] at h
    by_cases hun : m.isUncommitted pn = true
    · rw [if_neg (by simp [hun])] at h
      cases hget : m.getPage pn with
      | error e =>
        simp only [hget] at h
        exact absurd h (by simp)
      | ok node =>
        simp only [hget] at h
        cases node with
        | corrupt => exact absurd h (by simp)
        | leaf es =>
          injection h with h1 h2
          subst h1
          exact ⟨fun q _ => rfl, rfl, rfl, rfl, rfl, rfl,
            .inl ⟨es, getPage_ok hget, h2, rfl⟩⟩
        | branch cs ks =>
          cases hch : finalizeChildren (finalizeHelper fuel) m cs with
          | mk m1 res1 =>
            simp only [hch] at h
            cases res1 with
            | error e => exact absurd h (by simp)
            | ok ncs =>
              injection h with h1 h2
              obtain ⟨hF, hU, hN, hNF, hL, hB, hlen, hidx⟩ :=
                finalizeChildren_spec (finalizeHelper fuel)
                  (fun mm c mm' cck hh =>
                    ⟨(ih mm c mm' cck hh).1, (ih mm c mm' cck hh).2.1,
                     (ih mm c mm' cck hh).2.2.1, (ih mm c mm' cck hh).2.2.2.1,
                     (ih mm c mm' cck hh).2.2.2.2.1,
                     (ih mm c mm' cck hh).2.2.2.2.2.1⟩)
                  cs m m1 ncs hch
              subst h1
              refine ⟨?_, ?_, ?_, ?_, ?_, ?_,
                .inr ⟨cs, ks, ncs, getPage_ok hget, ?_, ?_, hlen, hidx⟩⟩
              · intro q hq
                have hne : q ≠ pn := by
                  intro hqq
                  rw [hqq, hun] at hq
                  exact absurd hq (by simp)
                show (setEntry m1.pages pn (.branch ncs ks)).lookup q =
                  m.pages.lookup q
                rw [lookup_setEntry_ne _ _ _ hne]
                exact hF q hq
              · exact hU
              · exact hN
              · exact hNF
              · exact hL
              · exact hB
              · exact lookup_setEntry_self m1.pages pn (.branch ncs ks)
              · rw [← hB]
                exact h2
    · rw [if_pos (by simpa using hun)] at h
      exact absurd h (by simp)

end Redb

/-- **C6**: `finalize_dirty_checksums` recomputes checksums bottom-up only
over uncommitted pages. An empty tree, or a committed root page, is
returned unchanged with the state untouched (the conjunct holds for every
state, in particular for every page table, so no page content is consulted
or modified). Otherwise the helper's result becomes the root checksum of
the returned header, whose root page and length are unchanged. The helper
itself, on success: leaves every committed page's content untouched, and
at a branch descends exactly into the uncommitted children, writes each
newly computed child checksum back into the parent page (committed
children keep their stored checksum entries verbatim) and only then
computes the parent's own checksum over the updated child list. -/
theorem finalize_dirty_checksums_spec :
    (∀ (fuel : Nat) (ts : Redb.TS), ts.root = none →
      Redb.finalizeDirtyChecksums fuel ts = (ts, .ok none)) ∧
    (∀ (fuel : Nat) (ts : Redb.TS) (h : Redb.BtreeHeader), ts.root = some h →
      ts.mem.isUncommitted h.root = false →
      Redb.finalizeDirtyChecksums fuel ts = (ts, .ok (some h))) ∧
    (∀ (fuel : Nat) (ts : Redb.TS) (h : Redb.BtreeHeader) (m' : Redb.Mem)
        (ck : Nat), ts.root = some h →
      ts.mem.isUncommitted h.root = true →
      Redb.finalizeHelper fuel ts.mem h.root = (m', .ok ck) →
      Redb.finalizeDirtyChecksums fuel ts =
        ({ ts with mem := m', root := some ⟨h.root, ck, h.length⟩ },
         .ok (some ⟨h.root, ck, h.length⟩))) ∧
    (∀ (fuel : Nat) (m : Redb.Mem) (pn : Nat) (m' : Redb.Mem) (ck : Nat),
      Redb.finalizeHelper fuel m pn = (m', .ok ck) →
      (∀ q, m.isUncommitted q = false →
        m'.pages.lookup q = m.pages.lookup q) ∧
      m'.isUncommitted = m.isUncommitted ∧ m'.freedNow = m.freedNow ∧
      m'.nextFree = m.nextFree ∧ m'.leafCk = m.leafCk ∧
      m'.branchCk = m.branchCk ∧
      ((∃ es, m.pages.lookup pn = some (.leaf es) ∧
          m.leafCk es = .ok ck ∧ m' = m) ∨
       (∃ cs ks ncs,
          m.pages.lookup pn = some (.branch cs ks) ∧
          m'.pages.lookup pn = some (.branch ncs ks) ∧
          m.branchCk ncs ks = .ok ck ∧
          ncs.length = cs.length ∧
          ∀ (i c cck : Nat), cs[i]? = some (c, cck) →
            (m.isUncommitted c = false → ncs[i]? = some (c, cck)) ∧
            (m.isUncommitted c = true →
              ∃ nck, ncs[i]? = some (c, nck))))) := by
  refine ⟨?_, ?_, ?_, Redb.finalizeHelper_spec⟩
  · intro fuel ts hroot
    simp only [Redb.finalizeDirtyChecksums, hroot]
  · intro fuel ts h hroot hu
    simp only [Redb.finalizeDirtyChecksums, hroot]
    rw [if_pos (by simp [hu])]
  · intro fuel ts h m' ck hroot hu hrec
    simp only [Redb.finalizeDirtyChecksums, hroot]
    rw [if_neg (by simp [hu]), hrec]

/-- Witness for `finalize_dirty_checksums_spec` on the concrete dirty tree
`tsDirty`: the uncommitted leaf checksum (101) is written back into the
root branch and the root header gains the recomputed branch checksum 15
with unchanged root page 1 and length 2. -/
theorem finalize_dirty_checksums_spec_witness :
    Redb.finalizeDirtyChecksums 5 Redb.tsDirty =
      ({ Redb.tsDirty with
          mem := (Redb.finalizeHelper 5 Redb.tsDirty.mem 1).1,
          root := some ⟨1, 15, 2⟩ }, .ok (some ⟨1, 15, 2⟩)) :=
  finalize_dirty_checksums_spec.2.2.1 5 Redb.tsDirty ⟨1, 77, 2⟩
    (Redb.finalizeHelper 5 Redb.tsDirty.mem 1).1 15 rfl rfl rfl

namespace Redb

theorem verifyChildren_ok_true (go : Nat → Nat → Except Err Bool) :
    ∀ (l : List (Nat × Nat)), verifyChildren go l = .ok true →
    ∀ c cck, (c, cck) ∈ l → go c cck = .ok true := by
  intro l
  induction l with
  | nil =>
    intro h c cck hmem
    simp at hmem
  | cons c0p rest ih =>
    obtain ⟨c0, ck0⟩ := c0p
    intro h c cck hmem
    simp only [verifyChildren] at h
    cases hrec : go c0 ck0 with
    | error e =>
      simp only [hrec] at h
      exact absurd h (by simp)
    | ok b =>
      cases b with
      | false =>
        simp only [hrec] at h
        exact absurd h (by simp)
      | true =>
        simp only [hrec] at h
        rcases List.mem_cons.mp hmem with hc | hc
        · obtain ⟨rfl, rfl⟩ := Prod.mk.inj hc
          exact hrec
        · exact ih h c cck hc

theorem verifyChildren_all (go : Nat → Nat → Except Err Bool) :
    ∀ (l : List (Nat × Nat)),
    (∀ c cck, (c, cck) ∈ l → go c cck = .ok true ∨ go c cck = .error .fuel) →
    verifyChildren go l = .ok true ∨ verifyChildren go l = .error .fuel := by
  intro l
  induction l with
  | nil =>
    intro h
    exact .inl rfl
  | cons c0p rest ih =>
    obtain ⟨c0, ck0⟩ := c0p
    intro h
    simp only [verifyChildren]
    rcases h c0 ck0 (List.mem_cons_self _ _) with h0 | h0
    · rw [h0]
      exact ih (fun c cck hm => h c cck (List.mem_cons_of_mem _ hm))
    · rw [h0]
      exact .inr rfl

theorem verifyHelper_ok_true (fuel : Nat) :
    ∀ (m : Mem) (pn ck : Nat),
    verifyChecksumHelper fuel m pn ck = .ok true → ChecksumOkay m pn ck := by
  induction fuel with
  | zero =>
    intro m pn ck h
    exact absurd h (by simp [verifyChecksumHelper])
  | succ fuel ih =>
    intro m pn ck h
    simp only [verifyChecksumHelper] at h
    cases hget : m.getPage pn with
    | error e =>
      simp only [hget] at h
      exact absurd h (by simp)
    | ok node =>
      simp only [hget] at h
      cases node with
      | corrupt => exact absurd h (by simp)
      | leaf es =>
        cases hck : m.leafCk es with
        | error e =>
          simp only [hck] at h
          exact absurd h (by simp)
        | ok computed =>
          simp only [hck] at h
          injection h with h
          have hc : ck = computed := beq_iff_eq.mp h
          exact ChecksumOkay.leaf hget (by rw [hc]; exact hck)
      | branch cs ks =>
        cases hck : m.branchCk cs ks with
        | error e =>
          simp only [hck] at h
          exact absurd h (by simp)
        | ok computed =>
          simp only [hck] at h
          by_cases hne : ck ≠ computed
          · rw [if_pos hne] at h
            exact absurd h (by simp)
          · rw [if_neg hne] at h
            push_neg at hne
            subst hne
            refine ChecksumOkay.branch hget hck ?_
            intro c cck hmem
            exact ih m c cck (verifyChildren_ok_true _ cs h c cck hmem)

theorem checksumOkay_verify (m : Mem) (pn ck : Nat)
    (hok : ChecksumOkay m pn ck) :
    ∀ fuel, verifyChecksumHelper fuel m pn ck = .ok true ∨
      verifyChecksumHelper fuel m pn ck = .error .fuel := by
  induction hok with
  | leaf hget hck =>
    intro fuel
    cases fuel with
    | zero => exact .inr rfl
    | succ fuel =>
      left
      simp only [verifyChecksumHelper, hget, hck]
      simp
  | branch hget hck hchild ih =>
    intro fuel
    cases fuel with
    | zero => exact .inr rfl
    | succ fuel =>
      have hall : ∀ c cck, (c, cck) ∈ _ →
          verifyChecksumHelper fuel m c cck = .ok true ∨
          verifyChecksumHelper fuel m c cck = .error .fuel :=
        fun c cck hm => ih c cck hm fuel
      have hres := verifyChildren_all
        (fun c cck => verifyChecksumHelper fuel m c cck) _ hall
      simp only [verifyChecksumHelper, hget, hck]
      rw [if_neg (by simp)]
      exact hres

end Redb

/-- **C7**: `RawBtree::verify_checksum` returns true on an empty tree;
otherwise it recursively recomputes each reachable page's checksum against
the stored expectation (the header checksum for the root, the per-child
checksum fields for branch children). It answers `ok true` exactly on
trees in which every reachable page matches (`ChecksumOkay`, up to fuel
exhaustion of the embedding), and `ok false` only on trees with some
mismatch; a stored/computed mismatch at a leaf or a branch, a failing
checksum computation, or a node-type byte that is neither LEAF nor BRANCH
each immediately yields `false`. -/
theorem verify_checksum_spec :
    (∀ (fuel : Nat) (m : Redb.Mem),
      Redb.verifyChecksum fuel none m = .ok true) ∧
    (∀ (fuel : Nat) (m : Redb.Mem) (pn ck : Nat),
      Redb.verifyChecksumHelper fuel m pn ck = .ok true →
      Redb.ChecksumOkay m pn ck) ∧
    (∀ (m : Redb.Mem) (pn ck : Nat), Redb.ChecksumOkay m pn ck →
      ∀ fuel, Redb.verifyChecksumHelper fuel m pn ck = .ok true ∨
        Redb.verifyChecksumHelper fuel m pn ck = .error .fuel) ∧
    (∀ (fuel : Nat) (m : Redb.Mem) (pn ck : Nat),
      Redb.verifyChecksumHelper fuel m pn ck = .ok false →
      ¬ Redb.ChecksumOkay m pn ck) ∧
    (∀ (fuel : Nat) (m : Redb.Mem) (pn ck : Nat),
      m.getPage pn = .ok .corrupt →
      Redb.verifyChecksumHelper (fuel + 1) m pn ck = .ok false) ∧
    (∀ (fuel : Nat) (m : Redb.Mem) (pn ck : Nat) (es : List Redb.Entry)
        (computed : Nat), m.getPage pn = .ok (.leaf es) →
      m.leafCk es = .ok computed → ck ≠ computed →
      Redb.verifyChecksumHelper (fuel + 1) m pn ck = .ok false) ∧
    (∀ (fuel : Nat) (m : Redb.Mem) (pn ck : Nat) (es : List Redb.Entry)
        (e : Redb.Err), m.getPage pn = .ok (.leaf es) →
      m.leafCk es = .error e →
      Redb.verifyChecksumHelper (fuel + 1) m pn ck = .ok false) ∧
    (∀ (fuel : Nat) (m : Redb.Mem) (pn ck : Nat) (cs : List (Nat × Nat))
        (ks : List Redb.KeyBytes) (computed : Nat),
      m.getPage pn = .ok (.branch cs ks) →
      m.branchCk cs ks = .ok computed → ck ≠ computed →
      Redb.verifyChecksumHelper (fuel + 1) m pn ck = .ok false) ∧
    (∀ (fuel : Nat) (m : Redb.Mem) (pn ck : Nat) (cs : List (Nat × Nat))
        (ks : List Redb.KeyBytes) (e : Redb.Err),
      m.getPage pn = .ok (.branch cs ks) →
      m.branchCk cs ks = .error e →
      Redb.verifyChecksumHelper (fuel + 1) m pn ck = .ok false) := by
  refine ⟨fun _ _ => rfl, Redb.verifyHelper_ok_true, Redb.checksumOkay_verify,
    ?_, ?_, ?_, ?_, ?_, ?_⟩
  · intro fuel m pn ck hfalse hok
    rcases Redb.checksumOkay_verify m pn ck hok fuel with h | h <;>
      rw [hfalse] at h <;> exact absurd h (by simp)
  · intro fuel m pn ck hget
    simp only [Redb.verifyChecksumHelper, hget]
  · intro fuel m pn ck es computed hget hck hne
    simp only [Redb.verifyChecksumHelper, hget, hck]
    rw [beq_eq_false_iff_ne.mpr hne]
  · intro fuel m pn ck es e hget hck
    simp only [Redb.verifyChecksumHelper, hget, hck]
  · intro fuel m pn ck cs ks computed hget hck hne
    simp only [Redb.verifyChecksumHelper, hget, hck]
    rw [if_pos hne]
  · intro fuel m pn ck cs ks e hget hck
    simp only [Redb.verifyChecksumHelper, hget, hck]

/-- Witness for `verify_checksum_spec`: on the concrete one-leaf tree
`tsPop` with the correct stored checksum 103 (`leafCk` of its 3 entries),
verification succeeds and soundness yields the declarative integrity
statement. -/
theorem verify_checksum_spec_witness :
    Redb.ChecksumOkay Redb.tsPop.mem 1 103 :=
  verify_checksum_spec.2.1 5 Redb.tsPop.mem 1 103 rfl

namespace Redb

theorem freeOrPush_pages (ts : TS) (pn : Nat) (mu : Bool) :
    (freeOrPush ts pn mu).mem.pages = ts.mem.pages := by
  unfold freeOrPush Mem.freeIfUncommitted Mem.free
  by_cases hmu : mu <;> by_cases h : ts.mem.isUncommitted pn <;>
    simp [hmu, h]

theorem freeOrPush_isUncommitted (ts : TS) (pn : Nat) (mu : Bool) :
    (freeOrPush ts pn mu).mem.isUncommitted = ts.mem.isUncommitted := by
  unfold freeOrPush Mem.freeIfUncommitted Mem.free
  by_cases hmu : mu <;> by_cases h : ts.mem.isUncommitted pn <;>
    simp [hmu, h]

theorem freeOrPush_true_uncommitted {ts : TS} {pn : Nat}
    (h : ts.mem.isUncommitted pn = true) :
    freeOrPush ts pn true =
      { ts with mem :=
        { ts.mem with freedNow := ts.mem.freedNow ++ [pn] } } := by
  unfold freeOrPush Mem.freeIfUncommitted Mem.free
  simp [h]

theorem freeOrPush_true_committed {ts : TS} {pn : Nat}
    (h : ts.mem.isUncommitted pn = false) :
    freeOrPush ts pn true = { ts with freedPages := ts.freedPages ++ [pn] } := by
  unfold freeOrPush Mem.freeIfUncommitted Mem.free
  simp [h]

theorem freeOrPush_freedNow_extends (ts : TS) (pn : Nat) (mu : Bool) :
    ∃ l, (freeOrPush ts pn mu).mem.freedNow = ts.mem.freedNow ++ l := by
  unfold freeOrPush Mem.freeIfUncommitted Mem.free
  by_cases hmu : mu <;> by_cases h : ts.mem.isUncommitted pn <;>
    simp [hmu, h]

theorem freeOrPush_freedPages_extends (ts : TS) (pn : Nat) (mu : Bool) :
    ∃ l, (freeOrPush ts pn mu).freedPages = ts.freedPages ++ l := by
  unfold freeOrPush Mem.freeIfUncommitted Mem.free
  by_cases hmu : mu <;> by_cases h : ts.mem.isUncommitted pn <;>
    simp [hmu, h]

theorem lookup_mem_snd {rmap : List (Nat × Nat)} {pn np : Nat}
    (h : rmap.lookup pn = some np) : np ∈ rmap.map Prod.snd := by
  induction rmap with
  | nil => simp at h
  | cons e rest ih =>
    obtain ⟨a, b⟩ := e
    rw [List.lookup_cons] at h
    cases hb : (pn == a) with
    | true =>
      simp only [hb] at h
      injection h with h
      subst h
      simp
    | false =>
      simp only [hb] at h
      simp [ih h]

end Redb

namespace Redb

theorem relocateChildren_spec
    (go : TS → Nat → TS × Except Err (Option (Nat × Nat)))
    (rmap : List (Nat × Nat))
    (hgo : ∀ s c s' r, go s c = (s', .ok r) →
      (∀ q, q ∉ rmap.map Prod.snd →
        s'.mem.pages.lookup q = s.mem.pages.lookup q) ∧
      s'.mem.isUncommitted = s.mem.isUncommitted ∧
      (∃ l, s'.mem.freedNow = s.mem.freedNow ++ l) ∧
      (∃ l, s'.freedPages = s.freedPages ++ l) ∧
      r = (rmap.lookup c).map (fun np => (np, DEFERRED))) :
    ∀ (l : List (Nat × Nat)) (ts ts' : TS) (ncs : List (Nat × Nat)),
    relocateChildren go ts l = (ts', .ok ncs) →
    (∀ q, q ∉ rmap.map Prod.snd →
      ts'.mem.pages.lookup q = ts.mem.pages.lookup q) ∧
    ts'.mem.isUncommitted = ts.mem.isUncommitted ∧
    (∃ l2, ts'.mem.freedNow = ts.mem.freedNow ++ l2) ∧
    (∃ l2, ts'.freedPages = ts.freedPages ++ l2) ∧
    ncs = l.map (fun c =>
      match rmap.lookup c.1 with
      | some nc => (nc, DEFERRED)
      | none => c) := by
  intro l
  induction l with
  | nil =>
    intro ts ts' ncs h
    simp only [relocateChildren] at h
    injection h with h1 h2
    injection h2 with h2
    subst h1
    subst h2
    exact ⟨fun q _ => rfl, rfl, ⟨[], by simp⟩, ⟨[], by simp⟩, by simp⟩
  | cons c0p rest ih =>
    obtain ⟨c0, ck0⟩ := c0p
    intro ts ts' ncs h
    simp only [relocateChildren] at h
    cases hrec : go ts c0 with
    | mk s1 r1 =>
      simp only [hrec] at h
      cases r1 with
      | error e => exact absurd h (by simp)
      | ok opt =>
        obtain ⟨hgF, hgU, hgN, hgP, hgr⟩ := hgo ts c0 s1 opt hrec
        cases opt with
        | none =>
          cases hrest : relocateChildren go s1 rest with
          | mk s2 r2 =>
            simp only [hrest] at h
            cases r2 with
            | error e => exact absurd h (by simp)
            | ok tl =>
              injection h with h1 h2
              injection h2 with h2
              subst h1
              subst h2
              obtain ⟨hF, hU, hN, hP, htl⟩ := ih s1 s2 tl hrest
              have hl : rmap.lookup c0 = none := by
                cases hlk : rmap.lookup c0 with
                | none => rfl
                | some np =>
                  rw [hlk] at hgr
                  simp at hgr
              refine ⟨?_, hU.trans hgU, ?_, ?_, ?_⟩
              · intro q hq
                rw [hF q hq, hgF q hq]
              · obtain ⟨l1, e1⟩ := hgN
                obtain ⟨lv, e2⟩ := hN
                exact ⟨l1 ++ lv, by rw [e2, e1, List.append_assoc]⟩
              · obtain ⟨l1, e1⟩ := hgP
                obtain ⟨lv, e2⟩ := hP
                exact ⟨l1 ++ lv, by rw [e2, e1, List.append_assoc]⟩
              · simp only [List.map_cons, hl]
                rw [htl]
        | some pr =>
          obtain ⟨nc, nck⟩ := pr
          cases hrest : relocateChildren go s1 rest with
          | mk s2 r2 =>
            simp only [hrest] at h
            cases r2 with
            | error e => exact absurd h (by simp)
            | ok tl =>
              injection h with h1 h2
              injection h2 with h2
              subst h1
              subst h2
              obtain ⟨hF, hU, hN, hP, htl⟩ := ih s1 s2 tl hrest
              have hl : rmap.lookup c0 = some nc ∧ nck = DEFERRED := by
                cases hlk : rmap.lookup c0 with
                | none =>
                  rw [hlk] at hgr
                  simp at hgr
                | some np =>
                  rw [hlk] at hgr
                  have hgr2 : some (nc, nck) = some (np, DEFERRED) := hgr
                  injection hgr2 with hgr2
                  obtain ⟨he1, he2⟩ := Prod.mk.inj hgr2
                  exact ⟨by rw [he1], he2⟩
              refine ⟨?_, hU.trans hgU, ?_, ?_, ?_⟩
              · intro q hq
                rw [hF q hq, hgF q hq]
              · obtain ⟨l1, e1⟩ := hgN
                obtain ⟨lv, e2⟩ := hN
                exact ⟨l1 ++ lv, by rw [e2, e1, List.append_assoc]⟩
              · obtain ⟨l1, e1⟩ := hgP
                obtain ⟨lv, e2⟩ := hP
                exact ⟨l1 ++ lv, by rw [e2, e1, List.append_assoc]⟩
              · simp only [List.map_cons, hl.1]
                rw [htl, hl.2]

end Redb

namespace Redb

theorem relocateHelper_spec (fuel : Nat) :
    ∀ (ts : TS) (pn : Nat) (rmap : List (Nat × Nat)) (ts' : TS)
      (r : Option (Nat × Nat)),
    relocateHelper fuel ts pn rmap = (ts', .ok r) →
    (∀ q, q ∉ rmap.map Prod.snd →
      ts'.mem.pages.lookup q = ts.mem.pages.lookup q) ∧
    ts'.mem.isUncommitted = ts.mem.isUncommitted ∧
    (∃ l, ts'.mem.freedNow = ts.mem.freedNow ++ l) ∧
    (∃ l, ts'.freedPages = ts.freedPages ++ l) ∧
    r = (rmap.lookup pn).map (fun np => (np, DEFERRED)) ∧
    (rmap.lookup pn = none → ts' = ts) ∧
    (∀ np, rmap.lookup pn = some np →
      ∃ node, ts.mem.getPage pn = .ok node ∧
        ts'.mem.pages.lookup np = some (relocNode rmap node) ∧
        (ts.mem.isUncommitted pn = true → pn ∈ ts'.mem.freedNow) ∧
        (ts.mem.isUncommitted pn = false → pn ∈ ts'.freedPages)) := by
  induction fuel with
  | zero =>
    intro ts pn rmap ts' r h
    exact absurd h (by simp [relocateHelper])
  | succ fuel ih =>
    intro ts pn rmap ts' r h
    simp only [relocateHelper] at h
    split at h
    · exact absurd h (by simp)
    · rename_i node hget
      split at h
      · rename_i hlk
        injection h with h1 h2
        injection h2 with h2
        subst h1
        subst h2
        refine ⟨fun q _ => rfl, rfl, ⟨[], by simp⟩, ⟨[], by simp⟩,
          by rw [hlk]; rfl, fun _ => rfl, ?_⟩
        intro np hnp
        rw [hlk] at hnp
        exact absurd hnp (by simp)
      · rename_i np hlk
        split at h
        · exact absurd h (by simp)
        · rename_i hio
          split at h
          · -- leaf copy
            rename_i es
            injection h with h1 h2
            injection h2 with h2
            subst h2
            subst h1
            have hnp : np ∈ rmap.map Prod.snd := lookup_mem_snd hlk
            constructor
            · intro q hq
              have hqnp : q ≠ np := fun hc => hq (hc ▸ hnp)
              rw [freeOrPush_pages]
              exact lookup_setEntry_ne _ _ _ hqnp
            refine ⟨by rw [freeOrPush_isUncommitted]; rfl, ?_, ?_,
              by rw [hlk]; rfl, ?_, ?_⟩
            · exact freeOrPush_freedNow_extends _ pn true
            · exact freeOrPush_freedPages_extends _ pn true
            · intro hc
              rw [hc] at hlk
              exact absurd hlk (by simp)
            · intro np' hnp'
              rw [hlk] at hnp'
              injection hnp' with hnp'
              subst hnp'
              refine ⟨.leaf es, hget, ?_, ?_, ?_⟩
              · rw [freeOrPush_pages]
                exact lookup_setEntry_self _ _ _
              · intro hunc
                have hunc2 : ({ ts with
                    mem := ts.mem.setPage np (.leaf es) } :
                    TS).mem.isUncommitted pn = true := hunc
                rw [freeOrPush_true_uncommitted hunc2]
                simp
              · intro hunc
                have hunc2 : ({ ts with
                    mem := ts.mem.setPage np (.leaf es) } :
                    TS).mem.isUncommitted pn = false := hunc
                rw [freeOrPush_true_committed hunc2]
                simp
          · -- branch copy
            rename_i children keys
            split at h
            · exact absurd h (by simp)
            · rename_i ts2 ncs hch
              injection h with h1 h2
              injection h2 with h2
              subst h2
              obtain ⟨hF, hU, hN, hP, hncs⟩ :=
                relocateChildren_spec (fun s c => relocateHelper fuel s c rmap)
                  rmap
                  (fun s c s' rr hh =>
                    ⟨(ih s c rmap s' rr hh).1, (ih s c rmap s' rr hh).2.1,
                     (ih s c rmap s' rr hh).2.2.1,
                     (ih s c rmap s' rr hh).2.2.2.1,
                     (ih s c rmap s' rr hh).2.2.2.2.1⟩)
                  children
                  { ts with mem := ts.mem.setPage np (.branch children keys) }
                  ts2 ncs hch
              subst h1
              have hnp : np ∈ rmap.map Prod.snd := lookup_mem_snd hlk
              have hU2 : ts2.mem.isUncommitted = ts.mem.isUncommitted := hU
              constructor
              · intro q hq
                have hqnp : q ≠ np := fun hc => hq (hc ▸ hnp)
                rw [freeOrPush_pages]
                show (setEntry ts2.mem.pages np (.branch ncs keys)).lookup q =
                  ts.mem.pages.lookup q
                rw [lookup_setEntry_ne _ _ _ hqnp, hF q hq]
                show (setEntry ts.mem.pages np (.branch children keys)).lookup q =
                  ts.mem.pages.lookup q
                exact lookup_setEntry_ne _ _ _ hqnp
              refine ⟨by rw [freeOrPush_isUncommitted]; exact hU2, ?_, ?_,
                by rw [hlk]; rfl, ?_, ?_⟩
              · obtain ⟨l1, e1⟩ := freeOrPush_freedNow_extends
                  { ts2 with mem := ts2.mem.setPage np (.branch ncs keys) }
                  pn true
                obtain ⟨l2, e2⟩ := hN
                refine ⟨l2 ++ l1, ?_⟩
                rw [e1]
                show ts2.mem.freedNow ++ l1 = _
                rw [e2]
                show ts.mem.freedNow ++ l2 ++ l1 = _
                rw [List.append_assoc]
              · obtain ⟨l1, e1⟩ := freeOrPush_freedPages_extends
                  { ts2 with mem := ts2.mem.setPage np (.branch ncs keys) }
                  pn true
                obtain ⟨l2, e2⟩ := hP
                refine ⟨l2 ++ l1, ?_⟩
                rw [e1]
                show ts2.freedPages ++ l1 = _
                rw [e2, List.append_assoc]
              · intro hc
                rw [hc] at hlk
                exact absurd hlk (by simp)
              · intro np' hnp'
                rw [hlk] at hnp'
                injection hnp' with hnp'
                subst hnp'
                refine ⟨.branch children keys, hget, ?_, ?_, ?_⟩
                · rw [freeOrPush_pages]
                  show (setEntry ts2.mem.pages np (.branch ncs keys)).lookup np =
                    some (relocNode rmap (.branch children keys))
                  rw [lookup_setEntry_self]
                  rw [hncs]
                  rfl
                · intro hunc
                  have hunc2 : ({ ts2 with
                      mem := ts2.mem.setPage np (.branch ncs keys) } :
                      TS).mem.isUncommitted pn = true := by
                    show ts2.mem.isUncommitted pn = true
                    rw [hU2]
                    exact hunc
                  rw [freeOrPush_true_uncommitted hunc2]
                  simp
                · intro hunc
                  have hunc2 : ({ ts2 with
                      mem := ts2.mem.setPage np (.branch ncs keys) } :
                      TS).mem.isUncommitted pn = false := by
                    show ts2.mem.isUncommitted pn = false
                    rw [hU2]
                    exact hunc
                  rw [freeOrPush_true_committed hunc2]
                  simp
          · exact absurd h (by simp)

end Redb

/-- **C5**: `relocate(relocation_map)` copies exactly the reachable pages
whose numbers are keys of the map to their pre-allocated targets — a page
absent from the map is not copied and its subtree is not descended into
(the state is returned unchanged by that call) — rewrites child pointers
inside copied branch pages so that every in-map child points at its
relocated page (with a `DEFERRED` checksum) while other children keep
their entries, frees each copied source page immediately if it is
uncommitted and otherwise appends it to the deferred freed-pages list,
and returns true exactly when the root page itself was in the map, in
which case the header is replaced with the target page, keeping the same
length. -/
theorem relocate_spec :
    (∀ (fuel : Nat) (ts : Redb.TS) (rmap : List (Nat × Nat)),
      ts.root = none → Redb.relocate fuel ts rmap = (ts, .ok false)) ∧
    (∀ (fuel : Nat) (ts : Redb.TS) (rmap : List (Nat × Nat))
        (h : Redb.BtreeHeader) (ts' : Redb.TS) (moved : Bool),
      ts.root = some h → Redb.relocate fuel ts rmap = (ts', .ok moved) →
      (moved = true ↔ (rmap.lookup h.root).isSome) ∧
      (moved = false → ts' = ts) ∧
      (∀ np, rmap.lookup h.root = some np →
        ts'.root = some ⟨np, Redb.DEFERRED, h.length⟩)) ∧
    (∀ (fuel : Nat) (ts : Redb.TS) (pn : Nat) (rmap : List (Nat × Nat))
        (ts' : Redb.TS) (r : Option (Nat × Nat)),
      Redb.relocateHelper fuel ts pn rmap = (ts', .ok r) →
      (∀ q, q ∉ rmap.map Prod.snd →
        ts'.mem.pages.lookup q = ts.mem.pages.lookup q) ∧
      ts'.mem.isUncommitted = ts.mem.isUncommitted ∧
      (∃ l, ts'.mem.freedNow = ts.mem.freedNow ++ l) ∧
      (∃ l, ts'.freedPages = ts.freedPages ++ l) ∧
      r = (rmap.lookup pn).map (fun np => (np, Redb.DEFERRED)) ∧
      (rmap.lookup pn = none → ts' = ts) ∧
      (∀ np, rmap.lookup pn = some np →
        ∃ node, ts.mem.getPage pn = .ok node ∧
          ts'.mem.pages.lookup np = some (Redb.relocNode rmap node) ∧
          (ts.mem.isUncommitted pn = true → pn ∈ ts'.mem.freedNow) ∧
          (ts.mem.isUncommitted pn = false → pn ∈ ts'.freedPages))) := by
  refine ⟨?_, ?_, Redb.relocateHelper_spec⟩
  · intro fuel ts rmap hroot
    simp only [Redb.relocate, hroot]
  · intro fuel ts rmap h ts' moved hroot hrel
    cases hrec : Redb.relocateHelper fuel ts h.root rmap with
    | mk ts1 res =>
      cases res with
      | error e =>
        have hstep : Redb.relocate fuel ts rmap = (ts1, .error e) := by
          simp only [Redb.relocate, hroot]
          rw [hrec]
        rw [hstep] at hrel
        exact absurd hrel (by simp)
      | ok r =>
        obtain ⟨-, -, -, -, hr, hnone, hsome⟩ :=
          Redb.relocateHelper_spec fuel ts h.root rmap ts1 r hrec
        cases r with
        | none =>
          have hstep : Redb.relocate fuel ts rmap = (ts1, .ok false) := by
            simp only [Redb.relocate, hroot]
            rw [hrec]
          rw [hstep] at hrel
          injection hrel with h1 h2
          injection h2 with h2
          subst h1
          have hlk : rmap.lookup h.root = none := by
            cases hlk2 : rmap.lookup h.root with
            | none => rfl
            | some np =>
              rw [hlk2] at hr
              exact absurd hr (by simp)
          refine ⟨?_, ?_, ?_⟩
          · rw [← h2]
            simp [hlk]
          · intro _
            exact hnone hlk
          · intro np hnp
            rw [hlk] at hnp
            exact absurd hnp (by simp)
        | some pr =>
          obtain ⟨np0, ck0⟩ := pr
          have hstep : Redb.relocate fuel ts rmap =
              ({ ts1 with root := some ⟨np0, ck0, h.length⟩ }, .ok true) := by
            simp only [Redb.relocate, hroot]
            rw [hrec]
          rw [hstep] at hrel
          injection hrel with h1 h2
          injection h2 with h2
          have hlk : ∃ np, rmap.lookup h.root = some np ∧ np0 = np ∧
              ck0 = Redb.DEFERRED := by
            cases hlk2 : rmap.lookup h.root with
            | none =>
              rw [hlk2] at hr
              exact absurd hr (by simp)
            | some np =>
              rw [hlk2] at hr
              have hr2 : some (np0, ck0) = some (np, Redb.DEFERRED) := hr
              injection hr2 with hr2
              obtain ⟨e1, e2⟩ := Prod.mk.inj hr2
              exact ⟨np, rfl, e1, e2⟩
          obtain ⟨np, hlk, rfl, rfl⟩ := hlk
          refine ⟨?_, ?_, ?_⟩
          · rw [← h2]
            simp [hlk]
          · intro hc
            rw [← h2] at hc
            exact absurd hc (by simp)
          · intro np' hnp'
            rw [hlk] at hnp'
            injection hnp' with hnp'
            subst hnp'
            rw [← h1]

/-- Witness for `relocate_spec`: relocating the concrete committed tree
`tsReloc` with a map moving root page 1 to 10 and leaf page 2 to 20
returns true and installs header root 10 with `DEFERRED` checksum and the
unchanged length 2. -/
theorem relocate_spec_witness :
    (true = true ↔
      (([(1, 10), (2, 20)] : List (Nat × Nat)).lookup 1).isSome) ∧
    (true = false →
      (Redb.relocate 5 Redb.tsReloc [(1, 10), (2, 20)]).1 = Redb.tsReloc) ∧
    (∀ np, ([(1, 10), (2, 20)] : List (Nat × Nat)).lookup 1 = some np →
      (Redb.relocate 5 Redb.tsReloc [(1, 10), (2, 20)]).1.root =
        some ⟨np, Redb.DEFERRED, 2⟩) :=
  relocate_spec.2.1 5 Redb.tsReloc [(1, 10), (2, 20)] ⟨1, 77, 2⟩
    (Redb.relocate 5 Redb.tsReloc [(1, 10), (2, 20)]).1 true rfl rfl

namespace Redb

/-- A successful `popFirstLeafStep` returns the pair at index 0 of the
leaf's entry list as the removed entry. -/
theorem popFirstLeafStep_entry {ts : TS} {pn : Nat} {entries : List Entry}
    {mu : Bool} {ts' : TS} {dres : DeletionResult} {ent : Entry}
    (h : popFirstLeafStep ts pn entries mu = (ts', .ok (some (dres, ent)))) :
    entries[0]? = some ent := by
  simp only [popFirstLeafStep] at h
  split at h
  · exact absurd h (by simp)
  · split at h
    · exact absurd h (by simp)
    · rename_i entry hsome
      split at h
      · exact absurd h (by simp)
      · rename_i ts1 dr heq
        injection h with h1 h2
        injection h2 with h2
        injection h2 with h2
        rw [hsome, (Prod.mk.inj h2).2]

/-- A successful `popLastLeafStep` returns the pair at the last index of
the leaf's entry list as the removed entry. -/
theorem popLastLeafStep_entry {ts : TS} {pn : Nat} {entries : List Entry}
    {mu : Bool} {ts' : TS} {dres : DeletionResult} {ent : Entry}
    (h : popLastLeafStep ts pn entries mu = (ts', .ok (some (dres, ent)))) :
    entries[entries.length - 1]? = some ent := by
  simp only [popLastLeafStep] at h
  split at h
  · exact absurd h (by simp)
  · split at h
    · exact absurd h (by simp)
    · rename_i entry hsome
      split at h
      · exact absurd h (by simp)
      · rename_i ts1 dr heq
        injection h with h1 h2
        injection h2 with h2
        injection h2 with h2
        rw [hsome, (Prod.mk.inj h2).2]

/-- When the in-order concatenation over a child list succeeds, the
sequence of the FIRST child is a prefix of the concatenation. -/
theorem inorderChildren_head (go : Mem → Nat → Except Err (List Entry))
    (m : Mem) (cs : List (Nat × Nat)) (l : List Entry) (cp cck : Nat)
    (h : inorderChildren go m cs = .ok l)
    (hhead : cs.head? = some (cp, cck)) :
    ∃ l1 l0, l = l1 ++ l0 ∧ go m cp = .ok l1 := by
  cases cs with
  | nil => exact absurd hhead (by simp)
  | cons c0 crest =>
    obtain ⟨a, b⟩ := c0
    simp only [List.head?_cons] at hhead
    injection hhead with hhead
    obtain ⟨rfl, rfl⟩ := Prod.mk.inj hhead
    simp only [inorderChildren] at h
    cases hgo : go m a with
    | error e =>
      simp only [hgo] at h
      exact absurd h (by simp)
    | ok l1 =>
      simp only [hgo] at h
      cases hrest : inorderChildren go m crest with
      | error e =>
        simp only [hrest] at h
        exact absurd h (by simp)
      | ok lr =>
        simp only [hrest] at h
        injection h with h
        exact ⟨l1, lr, h.symm, rfl⟩

/-- When the in-order concatenation over a child list succeeds, the
sequence of the LAST child is a suffix of the concatenation. -/
theorem inorderChildren_last (go : Mem → Nat → Except Err (List Entry))
    (m : Mem) :
    ∀ (cs : List (Nat × Nat)) (l : List Entry) (cp cck : Nat),
    inorderChildren go m cs = .ok l →
    cs.getLast? = some (cp, cck) →
    ∃ l0 l1, l = l0 ++ l1 ∧ go m cp = .ok l1 := by
  intro cs
  induction cs with
  | nil =>
    intro l cp cck h hlast
    exact absurd hlast (by simp)
  | cons c0 crest ih =>
    intro l cp cck h hlast
    obtain ⟨a, b⟩ := c0
    simp only [inorderChildren] at h
    cases hgo : go m a with
    | error e =>
      simp only [hgo] at h
      exact absurd h (by simp)
    | ok l0 =>
      simp only [hgo] at h
      cases hrest : inorderChildren go m crest with
      | error e =>
        simp only [hrest] at h
        exact absurd h (by simp)
      | ok lr =>
        simp only [hrest] at h
        injection h with h
        subst h
        cases crest with
        | nil =>
          simp at hlast
          obtain ⟨rfl, rfl⟩ := hlast
          have hlr : lr = [] := by
            simp only [inorderChildren] at hrest
            injection hrest with hrest
            exact hrest.symm
          subst hlr
          refine ⟨[], l0 ++ [], rfl, ?_⟩
          rw [List.append_nil]
          exact hgo
        | cons c1 crest2 =>
          rw [List.getLast?_cons_cons] at hlast
          obtain ⟨l0', l1, he, hgo'⟩ := ih lr cp cck hrest hlast
          exact ⟨l0 ++ l0', l1, by rw [he, List.append_assoc], hgo'⟩

/-- A successful `popFirstFromNode` removes the FIRST entry of the
in-order entry sequence of the subtree it is applied to. -/
theorem popFirstFromNode_head (fuel : Nat) :
    ∀ (fuel2 : Nat) (ts : TS) (pn ck : Nat) (mu : Bool) (ts' : TS)
      (dres : DeletionResult) (ent : Entry) (l : List Entry),
    popFirstFromNode fuel ts pn ck mu = (ts', .ok (some (dres, ent))) →
    inorderEntries fuel2 ts.mem pn = .ok l →
    l.head? = some ent := by
  induction fuel with
  | zero =>
    intro fuel2 ts pn ck mu ts' dres ent l h hin
    exact absurd h (by simp [popFirstFromNode])
  | succ fuel ih =>
    intro fuel2 ts pn ck mu ts' dres ent l h hin
    cases fuel2 with
    | zero => exact absurd hin (by simp [inorderEntries])
    | succ fuel2 =>
      simp only [popFirstFromNode] at h
      simp only [inorderEntries] at hin
      cases hget : ts.mem.getPage pn with
      | error e =>
        simp only [hget] at h
        exact absurd h (by simp)
      | ok node =>
        cases node with
        | corrupt =>
          simp only [hget] at h
          exact absurd h (by simp)
        | leaf es =>
          simp only [hget] at h hin
          injection hin with hin
          subst hin
          rw [List.head?_eq_getElem?]
          exact popFirstLeafStep_entry h
        | branch children keys =>
          simp only [hget] at h hin
          cases hc0 : children[0]? with
          | none =>
            simp only [hc0] at h
            exact absurd h (by simp)
          | some c =>
            obtain ⟨cp, cck⟩ := c
            simp only [hc0] at h
            cases hrec : popFirstFromNode fuel ts cp cck mu with
            | mk ts1 res =>
              simp only [hrec] at h
              cases res with
              | error e => exact absurd h (by simp)
              | ok opt =>
                cases opt with
                | none => exact absurd h (by simp)
                | some pr =>
                  obtain ⟨dres0, ent0⟩ := pr
                  have hent : ent0 = ent := by
                    cases hbs : popFirstBranchStep ts1 pn children keys ck mu dres0 with
                    | mk ts2 res2 =>
                      simp only [hbs] at h
                      cases res2 with
                      | error e2 => exact absurd h (by simp)
                      | ok fr =>
                        injection h with h1 h2
                        injection h2 with h2
                        injection h2 with h2
                        exact (Prod.mk.inj h2).2
                  have hheadc : children.head? = some (cp, cck) := by
                    rw [List.head?_eq_getElem?]
                    exact hc0
                  obtain ⟨l1, l0, he, hgo⟩ :=
                    inorderChildren_head (inorderEntries fuel2) ts.mem children l cp cck hin hheadc
                  have hh := ih fuel2 ts cp cck mu ts1 dres0 ent0 l1 hrec hgo
                  subst he
                  rw [List.head?_append, hh, hent]
                  rfl

/-- A successful `popLastFromNode` removes the LAST entry of the in-order
entry sequence of the subtree it is applied to. -/
theorem popLastFromNode_last (fuel : Nat) :
    ∀ (fuel2 : Nat) (ts : TS) (pn ck : Nat) (mu : Bool) (ts' : TS)
      (dres : DeletionResult) (ent : Entry) (l : List Entry),
    popLastFromNode fuel ts pn ck mu = (ts', .ok (some (dres, ent))) →
    inorderEntries fuel2 ts.mem pn = .ok l →
    l.getLast? = some ent := by
  induction fuel with
  | zero =>
    intro fuel2 ts pn ck mu ts' dres ent l h hin
    exact absurd h (by simp [popLastFromNode])
  | succ fuel ih =>
    intro fuel2 ts pn ck mu ts' dres ent l h hin
    cases fuel2 with
    | zero => exact absurd hin (by simp [inorderEntries])
    | succ fuel2 =>
      simp only [popLastFromNode] at h
      simp only [inorderEntries] at hin
      cases hget : ts.mem.getPage pn with
      | error e =>
        simp only [hget] at h
        exact absurd h (by simp)
      | ok node =>
        cases node with
        | corrupt =>
          simp only [hget] at h
          exact absurd h (by simp)
        | leaf es =>
          simp only [hget] at h hin
          injection hin with hin
          subst hin
          rw [List.getLast?_eq_getElem?]
          exact popLastLeafStep_entry h
        | branch children keys =>
          simp only [hget] at h hin
          cases hc0 : children[children.length - 1]? with
          | none =>
            simp only [hc0] at h
            exact absurd h (by simp)
          | some c =>
            obtain ⟨cp, cck⟩ := c
            simp only [hc0] at h
            cases hrec : popLastFromNode fuel ts cp cck mu with
            | mk ts1 res =>
              simp only [hrec] at h
              cases res with
              | error e => exact absurd h (by simp)
              | ok opt =>
                cases opt with
                | none => exact absurd h (by simp)
                | some pr =>
                  obtain ⟨dres0, ent0⟩ := pr
                  have hent : ent0 = ent := by
                    cases hbs : popLastBranchStep ts1 pn children keys ck mu dres0 with
                    | mk ts2 res2 =>
                      simp only [hbs] at h
                      cases res2 with
                      | error e2 => exact absurd h (by simp)
                      | ok fr =>
                        injection h with h1 h2
                        injection h2 with h2
                        injection h2 with h2
                        exact (Prod.mk.inj h2).2
                  have hlastc : children.getLast? = some (cp, cck) := by
                    rw [List.getLast?_eq_getElem?]
                    exact hc0
                  obtain ⟨l0, l1, he, hgo⟩ :=
                    inorderChildren_last (inorderEntries fuel2) ts.mem children l cp cck hin hlastc
                  have hh := ih fuel2 ts cp cck mu ts1 dres0 ent0 l1 hrec hgo
                  subst he
                  rw [List.getLast?_append, hh, hent]
                  rfl

/-- In a list that is `Pairwise R`, the last element is `R`-above every
element that precedes it. -/
theorem pairwise_last_rel {α : Type} {R : α → α → Prop} :
    ∀ (l : List α) (ent : α), l.getLast? = some ent →
    l.Pairwise R → ∀ e ∈ l.dropLast, R e ent := by
  intro l
  induction l with
  | nil =>
    intro ent h
    exact absurd h (by simp)
  | cons a t ih =>
    intro ent h hpw e he
    cases t with
    | nil => simp at he
    | cons b t2 =>
      rw [List.getLast?_cons_cons] at h
      rw [List.pairwise_cons] at hpw
      rw [List.dropLast_cons₂] at he
      rcases List.mem_cons.mp he with rfl | he2
      · exact hpw.1 ent (List.mem_of_getLast?_eq_some h)
      · exact ih ent h hpw.2 e he2

end Redb

/-- **C4**: pop ordering. On an empty tree (no root header) both
`pop_first` and `pop_last` return `None` and leave the state untouched.
Whenever `pop_first_from_node` succeeds with a removed pair, that pair is
the FIRST entry of the in-order entry sequence of the subtree it was
applied to, hence the minimum under any ordering the sequence is sorted
by (for every relation `R` with the sequence `Pairwise R`, the removed
entry is `R`-below every remaining entry); symmetrically
`pop_last_from_node` removes the LAST (maximum) entry. Concretely, on the
tree holding keys 1, 3, 5 (the set {5,1,3}), repeated `pop_first` returns
the owned pairs (1,10), (3,30), (5,50) and then `None`, and repeated
`pop_last` returns (5,50), (3,30), (1,10) and then `None`. -/
theorem pop_ordering_min_max :
    (∀ (fuel : Nat) (ts : Redb.TS) (mu : Bool), ts.root = none →
      Redb.popFirstHelper fuel ts mu = (ts, .ok none) ∧
      Redb.popLastHelper fuel ts mu = (ts, .ok none)) ∧
    (∀ (fuel fuel2 : Nat) (ts : Redb.TS) (pn ck : Nat) (mu : Bool)
        (ts' : Redb.TS) (dres : Redb.DeletionResult) (ent : Redb.Entry)
        (l : List Redb.Entry),
      Redb.popFirstFromNode fuel ts pn ck mu = (ts', .ok (some (dres, ent))) →
      Redb.inorderEntries fuel2 ts.mem pn = .ok l →
      l.head? = some ent ∧
      ∀ (R : Redb.Entry → Redb.Entry → Prop), l.Pairwise R →
        ∀ e ∈ l.tail, R ent e) ∧
    (∀ (fuel fuel2 : Nat) (ts : Redb.TS) (pn ck : Nat) (mu : Bool)
        (ts' : Redb.TS) (dres : Redb.DeletionResult) (ent : Redb.Entry)
        (l : List Redb.Entry),
      Redb.popLastFromNode fuel ts pn ck mu = (ts', .ok (some (dres, ent))) →
      Redb.inorderEntries fuel2 ts.mem pn = .ok l →
      l.getLast? = some ent ∧
      ∀ (R : Redb.Entry → Redb.Entry → Prop), l.Pairwise R →
        ∀ e ∈ l.dropLast, R e ent) ∧
    ((Redb.popFirstHelper 9 Redb.tsPop true).2 = .ok (some ⟨[1], [10]⟩) ∧
     (Redb.popFirstHelper 9 (Redb.popFirstHelper 9 Redb.tsPop true).1 true).2 =
       .ok (some ⟨[3], [30]⟩) ∧
     (Redb.popFirstHelper 9
       (Redb.popFirstHelper 9 (Redb.popFirstHelper 9 Redb.tsPop true).1 true).1
       true).2 = .ok (some ⟨[5], [50]⟩) ∧
     (Redb.popFirstHelper 9
       (Redb.popFirstHelper 9
         (Redb.popFirstHelper 9 (Redb.popFirstHelper 9 Redb.tsPop true).1 true).1
         true).1 true).2 = .ok none) ∧
    ((Redb.popLastHelper 9 Redb.tsPop true).2 = .ok (some ⟨[5], [50]⟩) ∧
     (Redb.popLastHelper 9 (Redb.popLastHelper 9 Redb.tsPop true).1 true).2 =
       .ok (some ⟨[3], [30]⟩) ∧
     (Redb.popLastHelper 9
       (Redb.popLastHelper 9 (Redb.popLastHelper 9 Redb.tsPop true).1 true).1
       true).2 = .ok (some ⟨[1], [10]⟩) ∧
     (Redb.popLastHelper 9
       (Redb.popLastHelper 9
         (Redb.popLastHelper 9 (Redb.popLastHelper 9 Redb.tsPop true).1 true).1
         true).1 true).2 = .ok none) := by
  refine ⟨?_, ?_, ?_, ⟨rfl, rfl, rfl, rfl⟩, ⟨rfl, rfl, rfl, rfl⟩⟩
  · intro fuel ts mu hroot
    constructor
    · simp only [Redb.popFirstHelper, hroot]
    · simp only [Redb.popLastHelper, hroot]
  · intro fuel fuel2 ts pn ck mu ts' dres ent l h hin
    have hh := Redb.popFirstFromNode_head fuel fuel2 ts pn ck mu ts' dres ent l h hin
    refine ⟨hh, ?_⟩
    intro R hpw e he
    cases l with
    | nil => exact absurd hh (by simp)
    | cons a t =>
      simp only [List.head?_cons] at hh
      injection hh with hh
      subst hh
      rw [List.pairwise_cons] at hpw
      exact hpw.1 e he
  · intro fuel fuel2 ts pn ck mu ts' dres ent l h hin
    have hh := Redb.popLastFromNode_last fuel fuel2 ts pn ck mu ts' dres ent l h hin
    exact ⟨hh, fun R hpw e he => Redb.pairwise_last_rel l ent hh hpw e he⟩

/-- Witness for `pop_ordering_min_max`: the empty-tree clause applied to
the concrete empty state `tsBare`, and the min/max clauses applied to the
concrete single-leaf tree `tsPop` holding keys 1, 3, 5: `pop_first`
removes entry (1,10), the head of the in-order sequence `popEntries`, and
`pop_last` removes entry (5,50), its last element. -/
theorem pop_ordering_min_max_witness :
    (Redb.tsBare.root = none ∧
     Redb.popFirstHelper 9 Redb.tsBare true = (Redb.tsBare, .ok none) ∧
     Redb.popLastHelper 9 Redb.tsBare true = (Redb.tsBare, .ok none)) ∧
    (Redb.popFirstFromNode 3 Redb.tsPop 1 77 true =
       ((Redb.popFirstFromNode 3 Redb.tsPop 1 77 true).1,
        .ok (some (.Subtree 2 Redb.DEFERRED, ⟨[1], [10]⟩))) ∧
     Redb.inorderEntries 3 Redb.tsPop.mem 1 = .ok Redb.popEntries ∧
     Redb.popEntries.head? = some ⟨[1], [10]⟩ ∧
     ∀ (R : Redb.Entry → Redb.Entry → Prop), Redb.popEntries.Pairwise R →
       ∀ e ∈ Redb.popEntries.tail, R ⟨[1], [10]⟩ e) ∧
    (Redb.popLastFromNode 3 Redb.tsPop 1 77 true =
       ((Redb.popLastFromNode 3 Redb.tsPop 1 77 true).1,
        .ok (some (.Subtree 2 Redb.DEFERRED, ⟨[5], [50]⟩))) ∧
     Redb.inorderEntries 3 Redb.tsPop.mem 1 = .ok Redb.popEntries ∧
     Redb.popEntries.getLast? = some ⟨[5], [50]⟩ ∧
     ∀ (R : Redb.Entry → Redb.Entry → Prop), Redb.popEntries.Pairwise R →
       ∀ e ∈ Redb.popEntries.dropLast, R e ⟨[5], [50]⟩) := by
  refine ⟨⟨rfl, ?_, ?_⟩, ⟨rfl, rfl, ?_, ?_⟩, ⟨rfl, rfl, ?_, ?_⟩⟩
  · exact (pop_ordering_min_max.1 9 Redb.tsBare true rfl).1
  · exact (pop_ordering_min_max.1 9 Redb.tsBare true rfl).2
  · exact (pop_ordering_min_max.2.1 3 3 Redb.tsPop 1 77 true
      (Redb.popFirstFromNode 3 Redb.tsPop 1 77 true).1
      (.Subtree 2 Redb.DEFERRED) ⟨[1], [10]⟩ Redb.popEntries rfl rfl).1
  · exact (pop_ordering_min_max.2.1 3 3 Redb.tsPop 1 77 true
      (Redb.popFirstFromNode 3 Redb.tsPop 1 77 true).1
      (.Subtree 2 Redb.DEFERRED) ⟨[1], [10]⟩ Redb.popEntries rfl rfl).2
  · exact (pop_ordering_min_max.2.2.1 3 3 Redb.tsPop 1 77 true
      (Redb.popLastFromNode 3 Redb.tsPop 1 77 true).1
      (.Subtree 2 Redb.DEFERRED) ⟨[5], [50]⟩ Redb.popEntries rfl rfl).1
  · exact (pop_ordering_min_max.2.2.1 3 3 Redb.tsPop 1 77 true
      (Redb.popLastFromNode 3 Redb.tsPop 1 77 true).1
      (.Subtree 2 Redb.DEFERRED) ⟨[5], [50]⟩ Redb.popEntries rfl rfl).2
